import Mathlib

/-!
# EntropyCalc: the integer chi-square classifier `detect_encryption`

A shallow embedding of `detect_encryption` from `sample.c`, followed by the
properties of its histogram, its statistic and its verdict.

Modelling conventions:
* a byte (`unsigned char`) is a `Fin 256`; a buffer is a list of bytes whose
  length is the number of bytes the pointer may be read at;
* `int` variables are `Int`; `uint32_t` values are `Nat` reduced modulo `2^32`;
  `int32_t` arithmetic is two's-complement (`to_int32`) in `detect_encryption`, and exact
  or `overflow` in the `Checked` variants, which are the ones used wherever a property
  turns on signed overflow;
* an out-of-bounds access, or a loop that has not finished when its fuel is
  spent, is `none`.
-/

namespace EntropyCalc

/-! ## The embedding of `detect_encryption` -/

/-- An `unsigned char`. -/
abbrev Byte := Fin 256

/-- Two's-complement reading of an integer as an `int32_t`. -/
def to_int32 (x : Int) : Int := (x + 2147483648) % 4294967296 - 2147483648

/-- Conversion of an integer to `uint32_t` (reduction modulo `2^32`). -/
def to_uint32 (x : Int) : Nat := (x % 4294967296).toNat

/-- The read `buffer[i]`; `none` when `i` is outside the buffer. -/
def read_byte (buffer : List Byte) (i : Int) : Option Byte :=
  if 0 ≤ i then buffer[i.toNat]? else none

/-- The read `counts[i]`; `none` when `i` is outside the array. -/
def read_count (counts : List Nat) (i : Int) : Option Nat :=
  if 0 ≤ i then counts[i.toNat]? else none

/-- The update `counts[k]++` on `uint32_t` counters; `none` when `k` is outside the array. -/
def incr_count (counts : List Nat) (k : Nat) : Option (List Nat) :=
  match counts[k]? with
  | none => none
  | some c => some (counts.set k (to_uint32 ((c : Int) + 1)))

/-- The loop `for (int i = 0; i < len; i++) counts[buffer[i]]++;`, entered at index `i`
with the counters `counts`. Since `i < len` holds whenever `i + 1` is computed, the
increment of `i` never leaves the range of `int`. -/
def count_loop (buffer : List Byte) (len : Int) : Nat → Int → List Nat → Option (List Nat)
  | 0, i, counts => if i < len then none else some counts
  | fuel + 1, i, counts =>
    if i < len then
      match read_byte buffer i with
      | none => none
      | some b =>
        match incr_count counts b.val with
        | none => none
        | some counts1 => count_loop buffer len fuel (i + 1) counts1
    else some counts

/-- The value `diff * diff` for one bucket, where `diff = (int32_t)counts[i] - 16`, as a
two's-complement machine computes it. It is exact while the counter is at most 46356; above
that the C multiplication overflows `int`, which `sq_diff_checked` reports instead. -/
def sq_diff (c : Nat) : Int :=
  let diff : Int := to_int32 (to_int32 (c : Int) - 16)
  to_int32 (diff * diff)

/-- The loop `for (int i = 0; i < 256; i++) { diff = ...; chi_sq_sum += diff * diff; }`,
entered at index `i` with the accumulator `chi`. -/
def score_loop (counts : List Nat) : Nat → Int → Nat → Option Nat
  | 0, i, chi => if i < 256 then none else some chi
  | fuel + 1, i, chi =>
    if i < 256 then
      match read_count counts i with
      | none => none
      | some c => score_loop counts fuel (i + 1) (to_uint32 ((chi : Int) + (to_uint32 (sq_diff c) : Int)))
    else some chi

/-- The counters after the counting pass, starting from `counts[256] = {0}`. -/
def histogram (buffer : List Byte) (len : Int) : Option (List Nat) :=
  count_loop buffer len len.toNat 0 (List.replicate 256 0)

/-- The value of `chi_sq_sum` after the scoring pass, starting from `chi_sq_sum = 0`. -/
def chi_sq_sum (buffer : List Byte) (len : Int) : Option Nat :=
  match histogram buffer len with
  | none => none
  | some counts => score_loop counts 256 0 0

/-- The function `detect_encryption`: `1` when `chi_sq_sum < 10000`, else `0`. -/
def detect_encryption (buffer : List Byte) (len : Int) : Option Int :=
  match chi_sq_sum buffer len with
  | none => none
  | some chi => if chi < 10000 then some 1 else some 0

/-! ## The frame of automatic variables -/

/-- The automatic variables of `detect_encryption`, as the slots of its stack frame. -/
structure Frame where
  counts : List Nat
  chi_sq_sum : Nat

/-- One call of `detect_encryption` run on a stack frame whose slots hold whatever earlier
calls left there; it returns the verdict together with the frame as the call leaves it. -/
def detect_encryption_call (stale : Frame) (buffer : List Byte) (len : Int) :
    Option Int × Frame :=
  -- `uint32_t counts[256] = {0};`
  let frame0 : Frame := Frame.mk (List.replicate 256 0) stale.chi_sq_sum
  -- `uint32_t chi_sq_sum = 0;`
  let frame1 : Frame := Frame.mk frame0.counts 0
  match count_loop buffer len len.toNat 0 frame1.counts with
  | none => (none, frame1)
  | some counts =>
    let frame2 : Frame := Frame.mk counts frame1.chi_sq_sum
    match score_loop frame2.counts 256 0 frame2.chi_sq_sum with
    | none => (none, frame2)
    | some chi =>
      let frame3 : Frame := Frame.mk frame2.counts chi
      (if frame3.chi_sq_sum < 10000 then some 1 else some 0, frame3)

/-- The frame left behind by a sequence of calls, each given as a buffer and a length. -/
def run_calls (stale : Frame) : List (List Byte × Int) → Frame
  | [] => stale
  | (buffer, len) :: rest => run_calls (detect_encryption_call stale buffer len).2 rest

/-! ## Reference quantities used to state the properties -/

/-- Number of bytes equal to `v` in a list of bytes. -/
def occ (l : List Byte) (v : Nat) : Nat := l.countP (fun b => b.val == v)

/-- Number of occurrences of the byte value `v` among the first `len` bytes of `buffer`. -/
def occurrences (buffer : List Byte) (len : Int) (v : Nat) : Nat :=
  occ (buffer.take len.toNat) v

/-- Squared deviation of a counter from the fixed expectation 16, as an exact integer. -/
def sq_dev (c : Nat) : Int := ((c : Int) - 16) ^ 2

/-- Exact sum over the 256 buckets of the squared deviations from 16 of the given counts. -/
def sq_dev_total (count : Nat → Nat) : Int :=
  ((List.range 256).map (fun v => sq_dev (count v))).sum

/-- The statistic as the specification words it: the sum over the 256 buckets of
`(count_i - E)^2` with `E = len / 256` (integer division). -/
def spec_chi_sq_sum (buffer : List Byte) (len : Int) : Int :=
  let E : Int := len / 256
  ((List.range 256).map (fun i => ((occurrences buffer len i : Int) - E) ^ 2)).sum

/-! ## Concrete buffers -/

/-- A buffer of 4096 bytes in which every byte value occurs exactly 16 times. -/
def uniform_buffer : List Byte := (List.replicate 16 (List.finRange 256)).flatten

/-- The text `the ` repeated 1024 times: 4096 bytes of ASCII prose. -/
def prose_buffer : List Byte := (List.replicate 1024 [116, 104, 101, 32]).flatten

/-- A buffer of 4196 bytes whose statistic is exactly 10000: byte 0 occurs 116 times and
every other byte value 16 times. -/
def at_threshold_buffer : List Byte := List.replicate 100 0 ++ uniform_buffer

/-- A buffer of 4211 bytes whose statistic is exactly 9999: the byte values 0, 1, 2, 3 occur
115, 30, 17, 17 times and every other byte value 16 times. -/
def below_threshold_buffer : List Byte :=
  List.replicate 99 0 ++ (List.replicate 14 1 ++ (2 :: 3 :: uniform_buffer))

/-! ## Exact-or-overflow arithmetic -/

/-- Result of a computation in which 32-bit overflow is tracked: a value, an arithmetic
overflow, or a memory fault (out-of-bounds access or exhausted fuel). -/
inductive Checked (α : Type) where
  | ok : α → Checked α
  | overflow : Checked α
  | fault : Checked α

/-- An integer as an `int32_t` when it fits, `none` when it does not. -/
def checked_int32 (x : Int) : Option Int :=
  if -2147483648 ≤ x ∧ x ≤ 2147483647 then some x else none

/-- An integer as a `uint32_t` when it fits, `none` when it does not. -/
def checked_uint32 (x : Int) : Option Nat :=
  if 0 ≤ x ∧ x ≤ 4294967295 then some x.toNat else none

/-- The value `diff = (int32_t)counts[i] - 16` without wrap-around; `none` on overflow. -/
def diff_checked (c : Nat) : Option Int :=
  match checked_int32 (c : Int) with
  | none => none
  | some c32 => checked_int32 (c32 - 16)

/-- The value `diff * diff` without wrap-around; `none` on signed overflow. -/
def sq_diff_checked (c : Nat) : Option Int :=
  match diff_checked c with
  | none => none
  | some diff => checked_int32 (diff * diff)

/-- The scoring loop with `diff`, `diff * diff` and `chi_sq_sum += ...` computed exactly:
the result is `overflow` as soon as one of them leaves its 32-bit range. -/
def score_loop_checked (counts : List Nat) : Nat → Int → Nat → Checked Nat
  | 0, i, chi => if i < 256 then Checked.fault else Checked.ok chi
  | fuel + 1, i, chi =>
    if i < 256 then
      match read_count counts i with
      | none => Checked.fault
      | some c =>
        match sq_diff_checked c with
        | none => Checked.overflow
        | some sq =>
          match checked_uint32 ((chi : Int) + sq) with
          | none => Checked.overflow
          | some chi1 => score_loop_checked counts fuel (i + 1) chi1
    else Checked.ok chi

/-- The statistic with overflow tracked in the scoring pass. -/
def chi_sq_sum_checked (buffer : List Byte) (len : Int) : Checked Nat :=
  match histogram buffer len with
  | none => Checked.fault
  | some counts => score_loop_checked counts 256 0 0

/-- The scoring loop as the C standard defines it: the signed computation of `diff * diff`
is exact or `overflow` (undefined behaviour), while the `uint32_t` accumulation wraps
modulo `2^32`, which is defined. -/
def score_loop_defined (counts : List Nat) : Nat → Int → Nat → Checked Nat
  | 0, i, chi => if i < 256 then Checked.fault else Checked.ok chi
  | fuel + 1, i, chi =>
    if i < 256 then
      match read_count counts i with
      | none => Checked.fault
      | some c =>
        match sq_diff_checked c with
        | none => Checked.overflow
        | some sq =>
          score_loop_defined counts fuel (i + 1)
            (to_uint32 ((chi : Int) + (to_uint32 sq : Int)))
    else Checked.ok chi

/-- The function `detect_encryption` with its outcome classified: a verdict, a signed
overflow in `diff * diff`, or a memory fault. -/
def detect_encryption_defined (buffer : List Byte) (len : Int) : Checked Int :=
  match histogram buffer len with
  | none => Checked.fault
  | some counts =>
    match score_loop_defined counts 256 0 0 with
    | Checked.ok chi => Checked.ok (if chi < 10000 then 1 else 0)
    | Checked.overflow => Checked.overflow
    | Checked.fault => Checked.fault

/-! ## The memory seen by one call -/

/-- The memory a call of `detect_encryption` can touch: the caller's buffer and the two
automatic variables of the callee. -/
structure Memory where
  buffer : List Byte
  counts : List Nat
  chi_sq_sum : Nat

/-- The counting loop as a transformer of the memory: it reads `buffer[i]` and stores only
into `counts`. -/
def count_loop_mem (len : Int) : Nat → Int → Memory → Option Memory
  | 0, i, m => if i < len then none else some m
  | fuel + 1, i, m =>
    if i < len then
      match read_byte m.buffer i with
      | none => none
      | some b =>
        match incr_count m.counts b.val with
        | none => none
        | some counts1 => count_loop_mem len fuel (i + 1) (Memory.mk m.buffer counts1 m.chi_sq_sum)
    else some m

/-- The scoring loop as a transformer of the memory: it reads `counts[i]` and stores only
into `chi_sq_sum`. -/
def score_loop_mem : Nat → Int → Memory → Option Memory
  | 0, i, m => if i < 256 then none else some m
  | fuel + 1, i, m =>
    if i < 256 then
      match read_count m.counts i with
      | none => none
      | some c =>
        score_loop_mem fuel (i + 1) (Memory.mk m.buffer m.counts
          (to_uint32 ((m.chi_sq_sum : Int) + (to_uint32 (sq_diff c) : Int))))
    else some m

/-- One call of `detect_encryption` as a transformer of the memory: the verdict and the
memory as the call leaves it, or `none` on an out-of-bounds access. -/
def detect_encryption_mem (m : Memory) (len : Int) : Option (Int × Memory) :=
  -- `uint32_t counts[256] = {0}; uint32_t chi_sq_sum = 0;`
  let m0 : Memory := Memory.mk m.buffer (List.replicate 256 0) 0
  match count_loop_mem len len.toNat 0 m0 with
  | none => none
  | some m1 =>
    match score_loop_mem 256 0 m1 with
    | none => none
    | some m2 => some (if m2.chi_sq_sum < 10000 then 1 else 0, m2)

/-! ## Enumerating buffers -/

/-- Every buffer of `n` bytes, each exactly once. -/
def all_buffers : Nat → List (List Byte)
  | 0 => [[]]
  | n + 1 => (all_buffers n).flatMap (fun l => (List.finRange 256).map (fun b => b :: l))

/-! ## Concrete histograms -/

/-- A histogram with one counter at 46356 and the other 255 at the expected 16. -/
def one_peak_counts : List Nat := 46356 :: List.replicate 255 16

/-- A histogram with three counters at 46356 and the other 253 at the expected 16. -/
def three_peak_counts : List Nat :=
  46356 :: (List.replicate 2 46356 ++ List.replicate 253 16)

/-- The buffer that holds, for each byte value `v` in increasing order, `count v` copies
of `v`. -/
def of_counts (count : Nat → Nat) : List Byte :=
  (List.finRange 256).flatMap (fun b => List.replicate (count b.val) b)

/-- A histogram of total 4096 whose sum of squared deviations is exactly 10000: five
counters at 56, twenty at 6 and the remaining 231 at 16. -/
def threshold_counts (v : Nat) : Nat := if v < 5 then 56 else if v < 25 then 6 else 16

/-- The most even histogram of total `n`: `n / 256` everywhere, one more in the first
`n % 256` buckets. -/
def balanced_counts (n : Nat) (v : Nat) : Nat := n / 256 + if v < n % 256 then 1 else 0

/-- The histogram with the first `k` counters at 46356 and the others at 16. -/
def peak_counts (k : Nat) (v : Nat) : Nat := if v < k then 46356 else 16

/-! ## Machine arithmetic -/

theorem to_uint32_cast (x : Int) : ((to_uint32 x : Nat) : Int) = x % 4294967296 := by
  unfold to_uint32; omega

theorem to_uint32_to_int32 (x : Int) : to_uint32 (to_int32 x) = to_uint32 x := by
  unfold to_uint32 to_int32; omega

theorem to_int32_modEq (x : Int) : to_int32 x ≡ x [ZMOD 4294967296] := by
  unfold to_int32 Int.ModEq; omega

theorem to_uint32_congr {x y : Int} (h : x ≡ y [ZMOD 4294967296]) : to_uint32 x = to_uint32 y := by
  unfold to_uint32; rw [h]

theorem sq_diff_modEq (c : Nat) : sq_diff c ≡ sq_dev c [ZMOD 4294967296] := by
  unfold sq_diff sq_dev
  have h1 : to_int32 (to_int32 (c : Int) - 16) ≡ (c : Int) - 16 [ZMOD 4294967296] :=
    (to_int32_modEq _).trans ((to_int32_modEq _).sub_right 16)
  refine (to_int32_modEq _).trans ?_
  rw [pow_two]
  exact h1.mul h1

theorem accumulate_eq (chi : Nat) (c : Nat) (r : Int) :
    to_uint32 ((to_uint32 ((chi : Int) + (to_uint32 (sq_diff c) : Int)) : Int) + r)
      = to_uint32 ((chi : Int) + (sq_dev c + r)) := by
  apply to_uint32_congr
  rw [to_uint32_cast, to_uint32_cast]
  have h := sq_diff_modEq c
  have h2 : ((chi : Int) + sq_diff c % 4294967296) % 4294967296 ≡ (chi : Int) + sq_dev c [ZMOD 4294967296] :=
    (Int.mod_modEq _ _).trans ((Int.ModEq.refl _).add ((Int.mod_modEq _ _).trans h))
  have h3 := h2.add_right r
  rw [add_assoc] at h3
  exact h3

theorem to_uint32_lt (x : Int) : to_uint32 x < 4294967296 := by
  unfold to_uint32; omega

theorem to_uint32_of_lt (n : Nat) (h : n < 4294967296) : to_uint32 (n : Int) = n := by
  unfold to_uint32; omega

/-- The scoring loop adds, modulo `2^32`, the squared deviations of the remaining counters. -/
theorem score_loop_eq (counts : List Nat) (hlen : counts.length = 256) :
    ∀ (fuel i : Nat) (chi : Nat), i + fuel = 256 → chi < 4294967296 →
      score_loop counts fuel (i : Int) chi
        = some (to_uint32 ((chi : Int) + ((counts.drop i).map sq_dev).sum)) := by
  intro fuel
  induction fuel with
  | zero =>
    intro i chi h hchi
    have hi : i = 256 := by omega
    subst hi
    have hnil : List.drop 256 counts = [] := List.drop_eq_nil_of_le (by omega)
    simp [score_loop, hnil, to_uint32_of_lt chi hchi]
  | succ fuel ih =>
    intro i chi h _
    have hi : i < counts.length := by omega
    have hlt : (i : Int) < 256 := by omega
    have hrd : read_count counts (i : Int) = some counts[i] := by
      simp [read_count, List.getElem?_eq_getElem hi]
    rw [List.drop_eq_getElem_cons hi]
    simp only [score_loop, hlt, if_true, hrd, List.map_cons, List.sum_cons]
    have := ih (i + 1) (to_uint32 ((chi : Int) + (to_uint32 (sq_diff counts[i]) : Int))) (by omega)
      (to_uint32_lt _)
    rw [Nat.cast_add, Nat.cast_one] at this
    rw [this, accumulate_eq]

/-! ## The two loops in closed form -/

theorem occ_cons (b : Byte) (l : List Byte) (v : Nat) :
    occ (b :: l) v = occ l v + if b.val = v then 1 else 0 := by
  unfold occ
  rw [List.countP_cons]
  simp

theorem incr_count_eq (counts : List Nat) (k : Nat) (hk : k < counts.length) :
    incr_count counts k = some (counts.set k (to_uint32 ((counts[k] : Int) + 1))) := by
  simp [incr_count, List.getElem?_eq_getElem hk]

/-- The counting loop finishes within its fuel, never leaves the buffer or the counter
array, and adds to each counter the occurrences among the bytes still to be read. -/
theorem count_loop_eq (buffer : List Byte) (len : Int) (hlen : len ≤ buffer.length) :
    ∀ (fuel i : Nat) (counts : List Nat), i + fuel = len.toNat → counts.length = 256 →
      (∀ v : Nat, counts[v]?.getD 0 < 4294967296) →
      ∃ counts1, count_loop buffer len fuel (i : Int) counts = some counts1 ∧
        counts1.length = 256 ∧
        ∀ v : Nat, counts1[v]?.getD 0
          = to_uint32 ((counts[v]?.getD 0 + occ ((buffer.drop i).take fuel) v : Nat) : Int) := by
  intro fuel
  induction fuel with
  | zero =>
    intro i counts h hc hb
    have hnot : ¬ ((i : Int) < len) := by omega
    refine ⟨counts, by simp [count_loop, hnot], hc, ?_⟩
    intro v
    simp [occ, to_uint32_of_lt _ (hb v)]
  | succ fuel ih =>
    intro i counts h hc hb
    have hlt : (i : Int) < len := by omega
    have hi : i < buffer.length := by omega
    have hrd : read_byte buffer (i : Int) = some buffer[i] := by
      simp [read_byte, List.getElem?_eq_getElem hi]
    have hk : (buffer[i]).val < counts.length := by rw [hc]; exact (buffer[i]).isLt
    have hb1 : ∀ v : Nat, (counts.set (buffer[i]).val
        (to_uint32 ((counts[(buffer[i]).val] : Int) + 1)))[v]?.getD 0 < 4294967296 := by
      intro v
      rw [List.getElem?_set]
      split
      · simp [hk, to_uint32_lt]
      · exact hb v
    obtain ⟨counts1, h1, h2, h3⟩ := ih (i + 1) _ (by omega) (by simpa using hc) hb1
    refine ⟨counts1, ?_, h2, ?_⟩
    · simp only [count_loop, hlt, if_true, hrd, incr_count_eq counts _ hk]
      rw [Nat.cast_add, Nat.cast_one] at h1
      exact h1
    · intro v
      rw [h3 v, List.drop_eq_getElem_cons hi, List.take_succ_cons, occ_cons, List.getElem?_set]
      by_cases hv : (buffer[i]).val = v
      · subst hv
        simp only [hk, if_true, Option.getD_some, List.getElem?_eq_getElem hk]
        generalize occ (List.take fuel (List.drop (i + 1) buffer)) (buffer[i]).val = k
        generalize counts[(buffer[i]).val] = c
        unfold to_uint32
        omega
      · simp [hv]

theorem sum_range_eq_finset {M : Type} [AddCommMonoid M] (f : Nat → M) (n : Nat) :
    ((List.range n).map f).sum = ∑ v in Finset.range n, f v := by
  induction n with
  | zero => simp
  | succ n ih => rw [List.range_succ, List.map_append, List.sum_append, ih, Finset.sum_range_succ]; simp

theorem occ_sum (l : List Byte) : ∑ v in Finset.range 256, occ l v = l.length := by
  induction l with
  | nil => simp [occ]
  | cons b l ih =>
    simp only [occ_cons, Finset.sum_add_distrib, ih, List.length_cons]
    rw [Finset.sum_ite_eq]
    simp [b.isLt]

theorem occ_le_length (l : List Byte) (v : Nat) : occ l v ≤ l.length :=
  List.countP_le_length _

theorem sum_map_modEq {α : Type} (f g : α → Int) (n : Int) (h : ∀ x, f x ≡ g x [ZMOD n]) (l : List α) :
    (l.map f).sum ≡ (l.map g).sum [ZMOD n] := by
  induction l with
  | nil => exact Int.ModEq.refl _
  | cons a l ih => simp only [List.map_cons, List.sum_cons]; exact (h a).add ih

theorem sq_dev_to_uint32 (n : Nat) : sq_dev (to_uint32 (n : Int)) ≡ sq_dev n [ZMOD 4294967296] := by
  unfold sq_dev
  have h : ((to_uint32 (n : Int) : Nat) : Int) ≡ (n : Int) [ZMOD 4294967296] := by
    rw [to_uint32_cast]; exact Int.mod_modEq _ _
  exact (h.sub_right 16).pow 2

theorem histogram_eq (buffer : List Byte) (len : Int) (hlen : len ≤ buffer.length) :
    histogram buffer len
      = some ((List.range 256).map (fun v => to_uint32 (occurrences buffer len v : Int))) := by
  obtain ⟨counts1, h1, h2, h3⟩ := count_loop_eq buffer len hlen len.toNat 0
    (List.replicate 256 0) (Nat.zero_add _) (List.length_replicate _ _) (by
      intro v; rw [List.getElem?_replicate]; split <;> simp)
  unfold histogram
  rw [Nat.cast_zero] at h1
  rw [h1]
  refine congrArg some ?_
  apply List.ext_getElem?
  intro v
  by_cases hv : v < 256
  · have hv1 : v < counts1.length := by omega
    have := h3 v
    rw [List.getElem?_eq_getElem hv1, Option.getD_some, List.getElem?_replicate, if_pos hv,
      Option.getD_some, Nat.zero_add, List.drop_zero] at this
    rw [List.getElem?_eq_getElem hv1, this, List.getElem?_map, List.getElem?_range hv]
    rfl
  · rw [List.getElem?_eq_none (by omega),
      List.getElem?_eq_none (by rw [List.length_map, List.length_range]; omega)]

/-- The statistic is the exact sum of squared deviations from 16, reduced modulo `2^32`. -/
theorem chi_sq_sum_eq (buffer : List Byte) (len : Int) (hlen : len ≤ buffer.length) :
    chi_sq_sum buffer len = some (to_uint32 (sq_dev_total (occurrences buffer len))) := by
  have h0 : chi_sq_sum buffer len = score_loop
      ((List.range 256).map (fun v => to_uint32 (occurrences buffer len v : Int))) 256 0 0 := by
    simp only [chi_sq_sum, histogram_eq buffer len hlen]
  rw [h0]
  have h := score_loop_eq ((List.range 256).map (fun v => to_uint32 (occurrences buffer len v : Int)))
    (by rw [List.length_map, List.length_range]) 256 0 0 (Nat.zero_add _) (by norm_num)
  rw [Nat.cast_zero] at h
  simp only [h, Nat.cast_zero, zero_add, List.drop_zero, List.map_map]
  refine congrArg some (to_uint32_congr ?_)
  exact sum_map_modEq _ _ _ (fun v => sq_dev_to_uint32 _) _

theorem detect_encryption_eq (buffer : List Byte) (len : Int) (hlen : len ≤ buffer.length) :
    detect_encryption buffer len
      = some (if to_uint32 (sq_dev_total (occurrences buffer len)) < 10000 then 1 else 0) := by
  unfold detect_encryption
  rw [chi_sq_sum_eq buffer len hlen]
  simp only []
  split <;> rfl

/-! ## Occurrence counts and the exact sum of squared deviations -/

theorem occurrences_full (buffer : List Byte) (len : Int) (h : len = buffer.length) (v : Nat) :
    occurrences buffer len v = occ buffer v := by
  unfold occurrences
  rw [List.take_of_length_le (by omega)]

theorem occ_eq_count (l : List Byte) (v : Byte) : occ l v.val = l.count v := by
  unfold occ List.count
  refine congrArg (fun p => List.countP p l) ?_
  funext b
  rw [Bool.eq_iff_iff]
  simp [Fin.ext_iff]

theorem sq_dev_total_eq_finset (count : Nat → Nat) :
    sq_dev_total count = ∑ v in Finset.range 256, sq_dev (count v) :=
  sum_range_eq_finset _ _

theorem to_uint32_of_nonneg_lt (x : Int) (h0 : 0 ≤ x) (h1 : x < 4294967296) :
    to_uint32 x = x.toNat := by
  unfold to_uint32; omega

theorem uniform_buffer_length : uniform_buffer.length = 4096 := by
  simp [uniform_buffer]

theorem uniform_buffer_count (v : Byte) : uniform_buffer.count v = 16 := by
  simp [uniform_buffer, List.count_flatten,
    List.count_eq_one_of_mem (List.nodup_finRange 256) (List.mem_finRange v)]

theorem occ_replicate (n : Nat) (b : Byte) (v : Nat) :
    occ (List.replicate n b) v = if b.val = v then n else 0 := by
  unfold occ
  rw [List.countP_replicate]
  simp

theorem sq_dev_total_single (n : Nat) (b : Byte) :
    sq_dev_total (fun v => if b.val = v then n else 0) = ((n : Int) - 16) ^ 2 + 255 * 256 := by
  rw [sq_dev_total_eq_finset]
  have h : ∀ v : Nat, sq_dev (if b.val = v then n else 0)
      = 256 + (if b.val = v then ((n : Int) - 16) ^ 2 - 256 else 0) := by
    intro v
    unfold sq_dev
    split <;> simp
  simp only [h, Finset.sum_add_distrib, Finset.sum_ite_eq, Finset.mem_range, b.isLt, if_true,
    Finset.sum_const, Finset.card_range]
  simp
  ring

theorem occurrences_zero (buffer : List Byte) (v : Nat) : occurrences buffer 0 v = 0 := by
  simp [occurrences, occ]

theorem sq_dev_total_zero : sq_dev_total (fun _ => 0) = 65536 := by
  have h := sq_dev_total_single 0 0
  simp only [ite_self] at h
  rw [h]; norm_num

theorem chi_sq_sum_len_zero (buffer : List Byte) : chi_sq_sum buffer 0 = some 65536 := by
  have hocc : occurrences buffer 0 = fun _ => 0 := funext (occurrences_zero buffer)
  rw [chi_sq_sum_eq buffer 0 (by omega), hocc, sq_dev_total_zero]
  rfl

theorem detect_encryption_len_zero (buffer : List Byte) : detect_encryption buffer 0 = some 0 := by
  simp only [detect_encryption, chi_sq_sum_len_zero]
  rfl

theorem sq_dev_total_nonneg (count : Nat → Nat) : 0 ≤ sq_dev_total count := by
  rw [sq_dev_total_eq_finset]
  exact Finset.sum_nonneg (fun v _ => sq_nonneg _)

theorem chi_sq_sum_one_byte : chi_sq_sum [0] 1 = some 65505 := by
  have hocc : occurrences [0] 1 = fun w => if (0 : Byte).val = w then 1 else 0 := by
    funext w
    exact occ_replicate 1 0 w
  have hS : sq_dev_total (occurrences [0] 1) = 65505 := by
    rw [hocc, sq_dev_total_single]; norm_num
  rw [chi_sq_sum_eq [0] 1 (by decide), hS]
  rfl

set_option maxRecDepth 100000 in
theorem spec_chi_sq_sum_one_byte : spec_chi_sq_sum [0] 1 = 1 := by decide!

theorem detect_encryption_call_fst (stale : Frame) (buffer : List Byte) (len : Int) :
    (detect_encryption_call stale buffer len).1 = detect_encryption buffer len := by
  unfold detect_encryption_call detect_encryption chi_sq_sum histogram
  simp only []
  cases count_loop buffer len len.toNat 0 (List.replicate 256 0) with
  | none => rfl
  | some counts =>
    simp only []
    cases score_loop counts 256 0 0 with
    | none => rfl
    | some chi => rfl

theorem occ_eq_zero_of_ascii (l : List Byte) (h : ∀ b ∈ l, b.val < 128) (v : Nat) (hv : 128 ≤ v) :
    occ l v = 0 := by
  unfold occ
  rw [List.countP_eq_zero]
  intro b hb
  have := h b hb
  simp
  omega

theorem sq_dev_le (c n : Nat) (hc : c ≤ n) (hn : 32 ≤ n) : sq_dev c ≤ ((n : Int) - 16) ^ 2 := by
  unfold sq_dev
  apply sq_le_sq'
  · omega
  · omega

theorem prose_buffer_length : prose_buffer.length = 4096 := by
  simp only [prose_buffer, List.length_flatten, List.map_replicate, List.sum_replicate,
    List.length_cons, List.length_nil, smul_eq_mul]

theorem prose_buffer_ascii : ∀ b ∈ prose_buffer, b.val < 128 := by
  intro b hb
  simp only [prose_buffer, List.mem_flatten, List.mem_replicate] at hb
  obtain ⟨l, ⟨_, rfl⟩, hb⟩ := hb
  simp only [List.mem_cons, List.mem_singleton, List.not_mem_nil, or_false] at hb
  rcases hb with rfl | rfl | rfl | rfl <;> decide

theorem occ_append (l1 l2 : List Byte) (v : Nat) : occ (l1 ++ l2) v = occ l1 v + occ l2 v := by
  unfold occ
  exact List.countP_append _ _ _

theorem occ_uniform_buffer (v : Nat) (hv : v < 256) : occ uniform_buffer v = 16 := by
  have h := occ_eq_count uniform_buffer ⟨v, hv⟩
  rw [uniform_buffer_count] at h
  exact h

theorem sq_dev_total_congr (f g : Nat → Nat) (h : ∀ v, v < 256 → f v = g v) :
    sq_dev_total f = sq_dev_total g := by
  rw [sq_dev_total_eq_finset, sq_dev_total_eq_finset]
  exact Finset.sum_congr rfl (fun v hv => by rw [h v (Finset.mem_range.mp hv)])

theorem at_threshold_buffer_length : at_threshold_buffer.length = 4196 := by
  rw [at_threshold_buffer, List.length_append, List.length_replicate, uniform_buffer_length]

theorem below_threshold_buffer_length : below_threshold_buffer.length = 4211 := by
  simp only [below_threshold_buffer, List.length_append, List.length_replicate, List.length_cons,
    uniform_buffer_length]

set_option maxRecDepth 100000 in
theorem sq_dev_total_at_threshold :
    sq_dev_total (fun v => (if v = 0 then 100 else 0) + 16) = 10000 := by decide!

set_option maxRecDepth 100000 in
theorem sq_dev_total_below_threshold :
    sq_dev_total (fun v => (if v = 0 then 99 else 0) + ((if v = 1 then 14 else 0)
      + ((if v = 2 then 1 else 0) + ((if v = 3 then 1 else 0) + 16)))) = 9999 := by decide!

theorem chi_sq_sum_at_threshold : chi_sq_sum at_threshold_buffer 4196 = some 10000 := by
  have hS : sq_dev_total (occurrences at_threshold_buffer 4196) = 10000 := by
    rw [← sq_dev_total_at_threshold]
    apply sq_dev_total_congr
    intro v hv
    rw [occurrences_full _ _ (by rw [at_threshold_buffer_length]; rfl), at_threshold_buffer,
      occ_append, occ_replicate, occ_uniform_buffer v hv]
    have e0 : ((0 : Byte) : Nat) = 0 := rfl
    simp only [e0, @eq_comm Nat _ v]
  rw [chi_sq_sum_eq _ _ (by rw [at_threshold_buffer_length]; decide), hS]
  rfl

theorem chi_sq_sum_below_threshold : chi_sq_sum below_threshold_buffer 4211 = some 9999 := by
  have hS : sq_dev_total (occurrences below_threshold_buffer 4211) = 9999 := by
    rw [← sq_dev_total_below_threshold]
    apply sq_dev_total_congr
    intro v hv
    rw [occurrences_full _ _ (by rw [below_threshold_buffer_length]; rfl), below_threshold_buffer,
      occ_append, occ_append, occ_cons, occ_cons, occ_replicate, occ_replicate,
      occ_uniform_buffer v hv]
    have e0 : ((0 : Byte) : Nat) = 0 := rfl
    have e1 : ((1 : Byte) : Nat) = 1 := rfl
    have e2 : ((2 : Byte) : Nat) = 2 := rfl
    have e3 : ((3 : Byte) : Nat) = 3 := rfl
    simp only [e0, e1, e2, e3, @eq_comm Nat _ v]
    omega
  rw [chi_sq_sum_eq _ _ (by rw [below_threshold_buffer_length]; decide), hS]
  rfl

/-! ## Overflow tracking, bounds, enumeration and constructed buffers -/

theorem sq_diff_checked_eq (c : Nat) (hc : c ≤ 46356) :
    diff_checked c = some ((c : Int) - 16) ∧ sq_diff_checked c = some (sq_dev c) := by
  have h1 : diff_checked c = some ((c : Int) - 16) := by
    simp only [diff_checked, checked_int32]
    rw [if_pos (by omega)]
    simp only []
    rw [if_pos (by omega)]
  refine ⟨h1, ?_⟩
  have hsq : sq_dev c ≤ 2147395600 := by
    have := sq_dev_le c 46356 hc (by norm_num)
    norm_num at this
    exact this
  have h0 : 0 ≤ sq_dev c := sq_nonneg _
  simp only [sq_diff_checked, h1, checked_int32]
  rw [← pow_two]
  change (if -2147483648 ≤ sq_dev c ∧ sq_dev c ≤ 2147483647 then some (sq_dev c) else none) = _
  rw [if_pos (by omega)]

theorem sq_diff_checked_overflow (c : Nat) (hc : 46357 ≤ c) : sq_diff_checked c = none := by
  simp only [sq_diff_checked, diff_checked, checked_int32]
  by_cases h1 : (c : Int) ≤ 2147483647
  · rw [if_pos (by omega)]
    simp only []
    rw [if_pos (by omega)]
    simp only []
    rw [if_neg]
    intro h
    have : (46341 : Int) * 46341 ≤ ((c : Int) - 16) * ((c : Int) - 16) :=
      mul_le_mul (by omega) (by omega) (by norm_num) (by omega)
    omega
  · rw [if_neg (by omega)]

theorem sq_diff_checked_some (c : Nat) (sq : Int) (h : sq_diff_checked c = some sq) :
    c ≤ 46356 ∧ sq = sq_dev c := by
  by_cases hc : c ≤ 46356
  · rw [(sq_diff_checked_eq c hc).2] at h
    exact ⟨hc, (Option.some.inj h).symm⟩
  · rw [sq_diff_checked_overflow c (by omega)] at h
    exact absurd h (by simp)

/-- With every counter at most 46356 and the running total below `2^32`, the checked
scoring loop returns the exact sum of squared deviations. -/
theorem score_loop_checked_eq (counts : List Nat) (hlen : counts.length = 256)
    (hc : ∀ c ∈ counts, c ≤ 46356) :
    ∀ (fuel i : Nat) (chi : Nat), i + fuel = 256 →
      (chi : Int) + ((counts.drop i).map sq_dev).sum ≤ 4294967295 →
      score_loop_checked counts fuel (i : Int) chi
        = Checked.ok ((chi : Int) + ((counts.drop i).map sq_dev).sum).toNat := by
  intro fuel
  induction fuel with
  | zero =>
    intro i chi h _
    have hi : i = 256 := by omega
    subst hi
    have hnil : List.drop 256 counts = [] := List.drop_eq_nil_of_le (by omega)
    simp [score_loop_checked, hnil]
  | succ fuel ih =>
    intro i chi h hsum
    have hi : i < counts.length := by omega
    have hlt : (i : Int) < 256 := by omega
    have hrd : read_count counts (i : Int) = some counts[i] := by
      simp [read_count, List.getElem?_eq_getElem hi]
    have hci : counts[i] ≤ 46356 := hc _ (List.getElem_mem hi)
    rw [List.drop_eq_getElem_cons hi, List.map_cons, List.sum_cons] at hsum ⊢
    have hrest : 0 ≤ ((counts.drop (i + 1)).map sq_dev).sum :=
      List.sum_nonneg (by
        intro x hx
        obtain ⟨c, _, rfl⟩ := List.mem_map.mp hx
        exact sq_nonneg _)
    have h0 : 0 ≤ sq_dev counts[i] := sq_nonneg _
    have hacc : checked_uint32 ((chi : Int) + sq_dev counts[i])
        = some ((chi : Int) + sq_dev counts[i]).toNat := by
      unfold checked_uint32
      rw [if_pos (by omega)]
    simp only [score_loop_checked, hlt, if_true, hrd, (sq_diff_checked_eq _ hci).2, hacc]
    have := ih (i + 1) ((chi : Int) + sq_dev counts[i]).toNat (by omega) (by
      rw [Int.toNat_of_nonneg (by omega)]; omega)
    rw [Nat.cast_add, Nat.cast_one] at this
    rw [this, Int.toNat_of_nonneg (by omega), add_assoc]

/-- A counter above 46356 makes the checked scoring loop end in `overflow`. -/
theorem score_loop_checked_overflow (counts : List Nat) (hlen : counts.length = 256) :
    ∀ (fuel i : Nat) (chi : Nat), i + fuel = 256 →
      (∃ j : Nat, i ≤ j ∧ ∃ hj : j < counts.length, 46357 ≤ counts[j]) →
      score_loop_checked counts fuel (i : Int) chi = Checked.overflow := by
  intro fuel
  induction fuel with
  | zero =>
    intro i chi h hex
    obtain ⟨j, hij, hj, _⟩ := hex
    omega
  | succ fuel ih =>
    intro i chi h hex
    have hi : i < counts.length := by omega
    have hlt : (i : Int) < 256 := by omega
    have hrd : read_count counts (i : Int) = some counts[i] := by
      simp [read_count, List.getElem?_eq_getElem hi]
    simp only [score_loop_checked, hlt, if_true, hrd]
    cases hsq : sq_diff_checked counts[i] with
    | none => rfl
    | some sq =>
      simp only []
      cases hacc : checked_uint32 ((chi : Int) + sq) with
      | none => rfl
      | some chi1 =>
        simp only []
        have hle := (sq_diff_checked_some _ _ hsq).1
        obtain ⟨j, hij, hj, hbig⟩ := hex
        have hne : j ≠ i := by
          intro e
          subst e
          omega
        have := ih (i + 1) chi1 (by omega) ⟨j, by omega, hj, hbig⟩
        rw [Nat.cast_add, Nat.cast_one] at this
        exact this

theorem occurrences_le (buffer : List Byte) (len : Int) (v : Nat) :
    occurrences buffer len v ≤ len.toNat := by
  have h := occ_le_length (buffer.take len.toNat) v
  rw [List.length_take] at h
  exact le_trans h (Nat.min_le_left _ _)

theorem occurrences_sum (buffer : List Byte) (len : Int) (hlen : len ≤ buffer.length) :
    ∑ v in Finset.range 256, occurrences buffer len v = len.toNat := by
  unfold occurrences
  rw [occ_sum, List.length_take]
  omega

/-- The slack between the exact sum of squared deviations and its maximum for a histogram
of total `n`: it is the sum of the products `c * (n - c)`. -/
theorem sq_dev_total_add_slack (count : Nat → Nat) (n : Nat)
    (hsum : ∑ v in Finset.range 256, count v = n) :
    sq_dev_total count + ∑ v in Finset.range 256, (count v : Int) * ((n : Int) - count v)
      = (n : Int) ^ 2 - 32 * n + 65536 := by
  rw [sq_dev_total_eq_finset, ← Finset.sum_add_distrib]
  have h : ∀ v, sq_dev (count v) + (count v : Int) * ((n : Int) - count v)
      = ((n : Int) - 32) * (count v : Int) + 256 := by
    intro v
    unfold sq_dev
    ring
  simp only [h, Finset.sum_add_distrib, ← Finset.mul_sum, Finset.sum_const, Finset.card_range]
  rw [← Nat.cast_sum, hsum]
  simp
  ring

theorem sq_dev_total_le (count : Nat → Nat) (n : Nat)
    (hle : ∀ v, v < 256 → count v ≤ n) (hsum : ∑ v in Finset.range 256, count v = n) :
    sq_dev_total count ≤ (n : Int) ^ 2 - 32 * n + 65536 := by
  have h := sq_dev_total_add_slack count n hsum
  have h0 : 0 ≤ ∑ v in Finset.range 256, (count v : Int) * ((n : Int) - count v) := by
    apply Finset.sum_nonneg
    intro v hv
    have := hle v (Finset.mem_range.mp hv)
    apply mul_nonneg <;> omega
  omega

theorem sq_dev_total_eq_max (count : Nat → Nat) (n : Nat)
    (hle : ∀ v, v < 256 → count v ≤ n) (hsum : ∑ v in Finset.range 256, count v = n)
    (hmax : sq_dev_total count = (n : Int) ^ 2 - 32 * n + 65536) :
    ∀ v, v < 256 → count v = 0 ∨ count v = n := by
  have h := sq_dev_total_add_slack count n hsum
  have h0 : ∑ v in Finset.range 256, (count v : Int) * ((n : Int) - count v) = 0 := by omega
  rw [Finset.sum_eq_zero_iff_of_nonneg] at h0
  · intro v hv
    have h1 := h0 v (Finset.mem_range.mpr hv)
    rcases mul_eq_zero.mp h1 with h2 | h2
    · left; omega
    · right; omega
  · intro v hv
    have := hle v (Finset.mem_range.mp hv)
    apply mul_nonneg <;> omega

theorem sq_dev_total_occurrences_le (buffer : List Byte) (len : Int)
    (hlen : len ≤ buffer.length) :
    sq_dev_total (occurrences buffer len)
      ≤ (len.toNat : Int) ^ 2 - 32 * len.toNat + 65536 :=
  sq_dev_total_le _ _ (fun v _ => occurrences_le buffer len v) (occurrences_sum buffer len hlen)

theorem sq_dev_total_lt_of_le (buffer : List Byte) (len : Int)
    (hlen : len ≤ buffer.length) (h : len ≤ 46356) :
    sq_dev_total (occurrences buffer len) ≤ 2148944272 := by
  have h1 := sq_dev_total_occurrences_le buffer len hlen
  have h2 : len.toNat ≤ 46356 := by omega
  generalize len.toNat = n at h1 h2
  have h3 : (n : Int) * (n : Int) ≤ 46356 * 46356 :=
    mul_le_mul (by omega) (by omega) (by omega) (by norm_num)
  rw [pow_two] at h1
  omega

theorem histogram_eq_exact (buffer : List Byte) (len : Int) (hlen : len ≤ buffer.length)
    (h : len ≤ 2147483647) :
    histogram buffer len = some ((List.range 256).map (occurrences buffer len)) := by
  rw [histogram_eq buffer len hlen]
  refine congrArg some (List.map_congr_left ?_)
  intro v _
  apply to_uint32_of_lt
  have := occurrences_le buffer len v
  omega

theorem chi_sq_sum_exact (buffer : List Byte) (len : Int) (hlen : len ≤ buffer.length)
    (h : len ≤ 46356) :
    chi_sq_sum buffer len = some (sq_dev_total (occurrences buffer len)).toNat := by
  rw [chi_sq_sum_eq buffer len hlen, to_uint32_of_nonneg_lt _ (sq_dev_total_nonneg _)]
  have := sq_dev_total_lt_of_le buffer len hlen h
  omega

theorem chi_sq_sum_checked_eq (buffer : List Byte) (len : Int) (hlen : len ≤ buffer.length)
    (h : len ≤ 46356) :
    chi_sq_sum_checked buffer len = Checked.ok (sq_dev_total (occurrences buffer len)).toNat := by
  have hh : chi_sq_sum_checked buffer len
      = score_loop_checked ((List.range 256).map (occurrences buffer len)) 256 0 0 := by
    simp only [chi_sq_sum_checked, histogram_eq_exact buffer len hlen (by omega)]
  have hsum : (((List.range 256).map (occurrences buffer len)).map sq_dev).sum
      = sq_dev_total (occurrences buffer len) := by
    rw [List.map_map]; rfl
  have hb := sq_dev_total_lt_of_le buffer len hlen h
  have := score_loop_checked_eq ((List.range 256).map (occurrences buffer len))
    (by rw [List.length_map, List.length_range])
    (by
      intro c hc
      obtain ⟨v, _, rfl⟩ := List.mem_map.mp hc
      have := occurrences_le buffer len v
      omega)
    256 0 0 (Nat.zero_add _) (by
      rw [List.drop_zero, hsum]
      simp only [Nat.cast_zero, zero_add]
      omega)
  rw [Nat.cast_zero, List.drop_zero, hsum] at this
  simp only [Nat.cast_zero, zero_add] at this
  rw [hh, this]

theorem to_int32_of_range (x : Int) (h0 : -2147483648 ≤ x) (h1 : x ≤ 2147483647) :
    to_int32 x = x := by
  unfold to_int32; omega

theorem sq_diff_eq_sq_dev (c : Nat) (hc : c ≤ 46356) : sq_diff c = sq_dev c := by
  have hsq : sq_dev c ≤ 2147395600 := by
    have := sq_dev_le c 46356 hc (by norm_num)
    norm_num at this
    exact this
  have h0 : 0 ≤ sq_dev c := sq_nonneg _
  unfold sq_diff
  simp only []
  rw [to_int32_of_range (c : Int) (by omega) (by omega),
    to_int32_of_range ((c : Int) - 16) (by omega) (by omega), ← pow_two]
  exact to_int32_of_range _ (by unfold sq_dev at h0; omega) (by unfold sq_dev at hsq; omega)

theorem occurrences_replicate (n : Nat) (b : Byte) :
    occurrences (List.replicate n b) (n : Int) = fun w => if b.val = w then n else 0 := by
  funext w
  rw [occurrences_full _ _ (by rw [List.length_replicate]), occ_replicate]

theorem sq_dev_total_upto_le (count : Nat → Nat) (k : Nat) (hk : k ≤ 256) :
    ∑ v in Finset.range k, sq_dev (count v) ≤ sq_dev_total count := by
  rw [sq_dev_total_eq_finset]
  exact Finset.sum_le_sum_of_subset_of_nonneg (Finset.range_mono hk)
    (fun v _ _ => sq_nonneg _)

theorem eq_replicate_of_occ (buffer : List Byte) (n : Nat) (hlen : buffer.length = n)
    (hn : 0 < n) (h : ∀ v, v < 256 → occ buffer v = 0 ∨ occ buffer v = n) :
    ∃ v : Byte, buffer = List.replicate n v := by
  cases buffer with
  | nil => simp at hlen; omega
  | cons b rest =>
    refine ⟨b, ?_⟩
    have h1 : occ (b :: rest) b.val = n := by
      rcases h b.val b.isLt with h0 | h0
      · rw [occ_cons] at h0
        simp at h0
      · exact h0
    rw [← hlen] at h1
    unfold occ at h1
    rw [List.countP_eq_length] at h1
    rw [List.eq_replicate_iff]
    refine ⟨hlen, ?_⟩
    intro a ha
    have := h1 a ha
    simp only [beq_iff_eq] at this
    exact Fin.ext this

theorem chi_sq_sum_checked_replicate_overflow (n : Nat) (v : Byte) (h1 : 46357 ≤ n)
    (h2 : n ≤ 2147483647) :
    chi_sq_sum_checked (List.replicate n v) (n : Int) = Checked.overflow := by
  have hle : ((n : Nat) : Int) ≤ (List.replicate n v).length := by
    rw [List.length_replicate]
  have hh : chi_sq_sum_checked (List.replicate n v) (n : Int)
      = score_loop_checked ((List.range 256).map (occurrences (List.replicate n v) (n : Int)))
          256 0 0 := by
    simp only [chi_sq_sum_checked, histogram_eq_exact _ _ hle (by omega)]
  rw [hh]
  have hl : ((List.range 256).map (occurrences (List.replicate n v) (n : Int))).length = 256 := by
    rw [List.length_map, List.length_range]
  have := score_loop_checked_overflow _ hl 256 0 0 (Nat.zero_add _)
    ⟨v.val, Nat.zero_le _, by rw [hl]; exact v.isLt, by
      rw [List.getElem_map, List.getElem_range, occurrences_replicate]
      simp only [if_true]
      exact h1⟩
  rw [Nat.cast_zero] at this
  exact this

theorem mem_all_buffers (n : Nat) : ∀ l : List Byte, l ∈ all_buffers n ↔ l.length = n := by
  induction n with
  | zero =>
    intro l
    simp [all_buffers]
  | succ n ih =>
    intro l
    simp only [all_buffers, List.mem_flatMap, List.mem_map]
    constructor
    · rintro ⟨t, ht, b, _, rfl⟩
      rw [List.length_cons, (ih t).mp ht]
    · intro hl
      cases l with
      | nil => simp at hl
      | cons b t =>
        exact ⟨t, (ih t).mpr (by simpa using hl), b, List.mem_finRange b, rfl⟩

theorem length_all_buffers (n : Nat) : (all_buffers n).length = 256 ^ n := by
  induction n with
  | zero => rfl
  | succ n ih =>
    have hc : (List.length ∘ fun l : List Byte => (List.finRange 256).map (fun b => b :: l))
        = fun _ => 256 := by
      funext l
      simp
    simp only [all_buffers, List.length_flatMap, hc, List.map_const', List.sum_replicate, ih,
      smul_eq_mul]
    rw [pow_succ]

theorem nodup_all_buffers (n : Nat) : (all_buffers n).Nodup := by
  induction n with
  | zero => simp [all_buffers]
  | succ n ih =>
    simp only [all_buffers]
    rw [List.nodup_flatMap]
    refine ⟨?_, ?_⟩
    · intro l _
      apply List.Nodup.map _ (List.nodup_finRange 256)
      intro a b hab
      exact (List.cons.inj hab).1
    · refine List.Pairwise.imp ?_ ih
      intro l1 l2 hne
      simp only [Function.onFun, List.Disjoint, List.mem_map]
      rintro x ⟨a, _, rfl⟩ ⟨b, _, hb⟩
      exact hne (List.cons.inj hb).2.symm

/-- Prepending a byte `b` changes the exact sum of squared deviations by `2 * occ - 31`,
where `occ` is the number of earlier occurrences of `b`. -/
theorem sq_dev_total_cons (b : Byte) (l : List Byte) :
    sq_dev_total (occ (b :: l)) = sq_dev_total (occ l) + (2 * (occ l b.val : Int) - 31) := by
  rw [sq_dev_total_eq_finset, sq_dev_total_eq_finset]
  have h : ∀ v : Nat, sq_dev (occ (b :: l) v)
      = sq_dev (occ l v) + (if b.val = v then 2 * (occ l v : Int) - 31 else 0) := by
    intro v
    rw [occ_cons]
    unfold sq_dev
    split
    · push_cast; ring
    · simp
  simp only [h, Finset.sum_add_distrib, Finset.sum_ite_eq, Finset.mem_range, b.isLt, if_true]

theorem sum_finRange_eq (g : Nat → Int) :
    ((List.finRange 256).map (fun b : Byte => g b.val)).sum = ∑ v in Finset.range 256, g v := by
  rw [← sum_range_eq_finset, ← List.map_coe_finRange, List.map_map]
  rfl

theorem sum_sq_dev_total_cons (l : List Byte) :
    ((List.finRange 256).map (fun b : Byte => sq_dev_total (occ (b :: l)))).sum
      = 256 * sq_dev_total (occ l) + (2 * (l.length : Int) - 7936) := by
  simp only [sq_dev_total_cons]
  rw [sum_finRange_eq (fun v => sq_dev_total (occ l) + (2 * (occ l v : Int) - 31))]
  simp only [Finset.sum_add_distrib, Finset.sum_sub_distrib, ← Finset.mul_sum,
    Finset.sum_const, Finset.card_range]
  rw [← Nat.cast_sum, occ_sum]
  simp

/-- Sum of the exact statistic over all buffers of `n` bytes. -/
theorem sum_all_buffers_succ (n : Nat) :
    ((all_buffers (n + 1)).map (fun l => sq_dev_total (occ l))).sum
      = 256 * ((all_buffers n).map (fun l => sq_dev_total (occ l))).sum
        + (2 * (n : Int) - 7936) * 256 ^ n := by
  have h1 : (all_buffers (n + 1)).map (fun l => sq_dev_total (occ l))
      = ((all_buffers n).map (fun l =>
          (List.finRange 256).map (fun b : Byte => sq_dev_total (occ (b :: l))))).flatten := by
    simp only [all_buffers, List.flatMap_def, List.map_flatten, List.map_map]
    refine congrArg List.flatten (List.map_congr_left ?_)
    intro l _
    simp only [Function.comp, List.map_map]
    exact List.map_congr_left (fun b _ => rfl)
  rw [h1, List.sum_flatten, List.map_map]
  have h2 : (all_buffers n).map (List.sum ∘ fun l =>
        (List.finRange 256).map (fun b : Byte => sq_dev_total (occ (b :: l))))
      = (all_buffers n).map (fun l => 256 * sq_dev_total (occ l) + (2 * (n : Int) - 7936)) := by
    apply List.map_congr_left
    intro l hl
    simp only [Function.comp]
    rw [sum_sq_dev_total_cons, (mem_all_buffers n l).mp hl]
  rw [h2, List.sum_map_add, List.sum_map_mul_left, List.map_const', List.sum_replicate,
    length_all_buffers]
  simp
  ring

theorem sum_all_buffers (n : Nat) :
    256 * ((all_buffers n).map (fun l => sq_dev_total (occ l))).sum
      = ((n : Int) ^ 2 - 7937 * n + 16777216) * 256 ^ n := by
  induction n with
  | zero =>
    simp only [all_buffers, List.map_cons, List.map_nil, List.sum_cons, List.sum_nil]
    have : sq_dev_total (occ []) = 65536 := by
      have h : occ [] = fun _ => 0 := by funext v; simp [occ]
      rw [h, sq_dev_total_zero]
    rw [this]
    norm_num
  | succ n ih =>
    rw [sum_all_buffers_succ, mul_add, ← mul_assoc, mul_comm 256 256, mul_assoc, ih]
    push_cast
    ring

theorem map_sq_dev_sum (cs : List Nat) (h : cs.length = 256) :
    (cs.map sq_dev).sum = sq_dev_total (fun i => cs[i]?.getD 0) := by
  unfold sq_dev_total
  refine congrArg List.sum (List.ext_getElem ?_ ?_)
  · rw [List.length_map, List.length_map, List.length_range, h]
  · intro i h1 h2
    rw [List.length_map] at h1
    rw [List.getElem_map, List.getElem_map, List.getElem_range]
    simp only [List.getElem?_eq_getElem h1, Option.getD_some]

theorem score_loop_closed (cs : List Nat) (h : cs.length = 256) :
    score_loop cs 256 0 0 = some (to_uint32 ((cs.map sq_dev).sum)) := by
  have := score_loop_eq cs h 256 0 0 (Nat.zero_add _) (by norm_num)
  rw [Nat.cast_zero, List.drop_zero] at this
  simp only [Nat.cast_zero, zero_add] at this
  exact this

theorem sq_dev_mono (a b : Nat)
    (h : Int.natAbs ((a : Int) - 16) ≤ Int.natAbs ((b : Int) - 16)) : sq_dev a ≤ sq_dev b := by
  unfold sq_dev
  rw [← Int.natAbs_sq ((a : Int) - 16), ← Int.natAbs_sq ((b : Int) - 16)]
  have h1 : ((Int.natAbs ((a : Int) - 16) : Nat) : Int) ≤ (Int.natAbs ((b : Int) - 16) : Nat) := by
    exact_mod_cast h
  exact pow_le_pow_left₀ (by omega) h1 2

theorem one_peak_sum : (one_peak_counts.map sq_dev).sum = 2147395600 := by
  simp only [one_peak_counts, List.map_cons, List.map_replicate, List.sum_cons,
    List.sum_replicate, sq_dev]
  norm_num

theorem three_peak_sum : (three_peak_counts.map sq_dev).sum = 6442186800 := by
  simp only [three_peak_counts, List.map_cons, List.map_append, List.map_replicate,
    List.sum_cons, List.sum_append, List.sum_replicate, sq_dev]
  norm_num

theorem one_peak_length : one_peak_counts.length = 256 := by
  simp only [one_peak_counts, List.length_cons, List.length_replicate]

theorem three_peak_length : three_peak_counts.length = 256 := by
  simp only [three_peak_counts, List.length_cons, List.length_append, List.length_replicate]

theorem one_peak_score : score_loop one_peak_counts 256 0 0 = some 2147395600 := by
  rw [score_loop_closed _ one_peak_length, one_peak_sum]
  rfl

theorem three_peak_score : score_loop three_peak_counts 256 0 0 = some 2147219504 := by
  rw [score_loop_closed _ three_peak_length, three_peak_sum]
  rfl

theorem one_peak_le (c : Nat) (h : c ∈ one_peak_counts) : c ≤ 46356 := by
  simp only [one_peak_counts, List.mem_cons, List.mem_replicate] at h
  omega

theorem three_peak_le (c : Nat) (h : c ∈ three_peak_counts) : c ≤ 46356 := by
  simp only [three_peak_counts, List.mem_cons, List.mem_append, List.mem_replicate] at h
  omega

theorem peak_deviations (i : Nat) (hi : i < 256) :
    Int.natAbs (((one_peak_counts[i]?.getD 0 : Nat) : Int) - 16)
      ≤ Int.natAbs (((three_peak_counts[i]?.getD 0 : Nat) : Int) - 16) := by
  cases i with
  | zero => exact le_refl _
  | succ j =>
    have h : one_peak_counts[j + 1]?.getD 0 = 16 := by
      simp only [one_peak_counts, List.getElem?_cons_succ, List.getElem?_replicate]
      rw [if_pos (by omega)]
      rfl
    rw [h]
    exact Nat.zero_le _

theorem sum_finRange_nat (g : Nat → Nat) :
    ((List.finRange 256).map (fun b : Byte => g b.val)).sum = ∑ v in Finset.range 256, g v := by
  rw [← sum_range_eq_finset, ← List.map_coe_finRange, List.map_map]
  rfl

theorem occ_of_counts (count : Nat → Nat) (v : Nat) (hv : v < 256) :
    occ (of_counts count) v = count v := by
  unfold occ of_counts
  rw [List.flatMap_def, List.countP_flatten, List.map_map]
  have h : (List.countP (fun b : Byte => b.val == v) ∘ fun b : Byte =>
        List.replicate (count b.val) b)
      = fun b : Byte => (fun w => if w = v then count w else 0) b.val := by
    funext b
    simp only [Function.comp, List.countP_replicate]
    simp
  rw [h, sum_finRange_nat (fun w => if w = v then count w else 0), Finset.sum_ite_eq']
  simp [hv]

theorem length_of_counts (count : Nat → Nat) :
    (of_counts count).length = ∑ v in Finset.range 256, count v := by
  unfold of_counts
  rw [List.length_flatMap]
  have h : (List.length ∘ fun b : Byte => List.replicate (count b.val) b)
      = fun b : Byte => count b.val := by
    funext b
    simp
  rw [h, sum_finRange_nat count]

theorem sq_dev_total_of_counts (count : Nat → Nat) :
    sq_dev_total (occ (of_counts count)) = sq_dev_total count :=
  sq_dev_total_congr _ _ (fun v hv => occ_of_counts count v hv)

/-- Each squared deviation is at least `13 * diff - 42` and at least `-13 * diff - 42`. -/
theorem sq_dev_ge_linear (c : Nat) :
    13 * ((c : Int) - 16) - 42 ≤ sq_dev c ∧ -13 * ((c : Int) - 16) - 42 ≤ sq_dev c := by
  unfold sq_dev
  generalize (c : Int) - 16 = d
  constructor
  · have h : 0 ≤ (d - 6) * (d - 7) := by
      rcases le_or_lt d 6 with h | h
      · exact mul_nonneg_of_nonpos_of_nonpos (by omega) (by omega)
      · exact mul_nonneg (by omega) (by omega)
    nlinarith
  · have h : 0 ≤ (d + 6) * (d + 7) := by
      rcases le_or_lt d (-7) with h | h
      · exact mul_nonneg_of_nonpos_of_nonpos (by omega) (by omega)
      · exact mul_nonneg (by omega) (by omega)
    nlinarith

/-- The exact sum of squared deviations of a histogram of total `n` is at least
`13 * |n - 4096| - 10752`. -/
theorem sq_dev_total_ge_linear (count : Nat → Nat) (n : Nat)
    (hsum : ∑ v in Finset.range 256, count v = n) :
    13 * ((n : Int) - 4096) - 10752 ≤ sq_dev_total count ∧
    -13 * ((n : Int) - 4096) - 10752 ≤ sq_dev_total count := by
  rw [sq_dev_total_eq_finset]
  have hs : ∑ v in Finset.range 256, ((count v : Int) - 16) = (n : Int) - 4096 := by
    rw [Finset.sum_sub_distrib, ← Nat.cast_sum, hsum]
    simp
  constructor
  · have h := Finset.sum_le_sum (fun v (_ : v ∈ Finset.range 256) => (sq_dev_ge_linear (count v)).1)
    rw [Finset.sum_sub_distrib, ← Finset.mul_sum, hs] at h
    simp at h
    omega
  · have h := Finset.sum_le_sum (fun v (_ : v ∈ Finset.range 256) => (sq_dev_ge_linear (count v)).2)
    rw [Finset.sum_sub_distrib, ← Finset.mul_sum, hs] at h
    simp at h
    omega

theorem sum_indicator_lt (N r : Nat) (hr : r ≤ N) (g : Nat → Int) :
    ∑ v in Finset.range N, g (if v < r then 1 else 0) = r * g 1 + ((N : Int) - r) * g 0 := by
  obtain ⟨m, rfl⟩ : ∃ m, N = r + m := ⟨N - r, by omega⟩
  rw [Finset.sum_range_add]
  have h1 : ∀ v ∈ Finset.range r, g (if v < r then 1 else 0) = g 1 := by
    intro v hv
    rw [if_pos (Finset.mem_range.mp hv)]
  have h2 : ∀ v ∈ Finset.range m, g (if r + v < r then 1 else 0) = g 0 := by
    intro v _
    rw [if_neg (by omega)]
  rw [Finset.sum_congr rfl h1, Finset.sum_congr rfl h2]
  simp

theorem balanced_counts_sum (n : Nat) : ∑ v in Finset.range 256, balanced_counts n v = n := by
  have h := sum_indicator_lt 256 (n % 256) (le_of_lt (Nat.mod_lt _ (by norm_num)))
    (fun x => ((n / 256 : Nat) : Int) + (x : Int))
  have h2 : ((∑ v in Finset.range 256, balanced_counts n v : Nat) : Int)
      = ∑ v in Finset.range 256,
          (fun x : Nat => ((n / 256 : Nat) : Int) + (x : Int)) (if v < n % 256 then 1 else 0) := by
    rw [Nat.cast_sum]
    refine Finset.sum_congr rfl (fun v _ => ?_)
    unfold balanced_counts
    push_cast
    rfl
  rw [h] at h2
  have h3 := Nat.div_add_mod n 256
  have h4 : ((∑ v in Finset.range 256, balanced_counts n v : Nat) : Int)
      = ((n % 256 + 256 * (n / 256) : Nat) : Int) := by
    rw [h2]
    push_cast
    ring
  have h5 := Int.ofNat.inj h4
  omega

theorem sq_dev_total_balanced (n : Nat) :
    sq_dev_total (balanced_counts n)
      = (n % 256 : Nat) * (((n / 256 : Nat) : Int) - 15) ^ 2
        + (256 - ((n % 256 : Nat) : Int)) * (((n / 256 : Nat) : Int) - 16) ^ 2 := by
  rw [sq_dev_total_eq_finset]
  have h := sum_indicator_lt 256 (n % 256) (le_of_lt (Nat.mod_lt _ (by norm_num)))
    (fun x => (((n / 256 : Nat) : Int) + (x : Int) - 16) ^ 2)
  have h2 : ∀ v, sq_dev (balanced_counts n v)
      = (fun x : Nat => (((n / 256 : Nat) : Int) + (x : Int) - 16) ^ 2)
          (if v < n % 256 then 1 else 0) := by
    intro v
    unfold sq_dev balanced_counts
    push_cast
    rfl
  rw [Finset.sum_congr rfl (fun v _ => h2 v), h]
  push_cast
  ring

theorem sq_dev_total_balanced_lt (n : Nat) (h1 : 2500 ≤ n) (h2 : n ≤ 5692) :
    sq_dev_total (balanced_counts n) < 10000 := by
  rw [sq_dev_total_balanced]
  have h3 := Nat.div_add_mod n 256
  have h4 : n % 256 < 256 := Nat.mod_lt _ (by norm_num)
  generalize n / 256 = q at h3 ⊢
  generalize n % 256 = r at h3 h4 ⊢
  have hq1 : 9 ≤ q := by omega
  have hq2 : q ≤ 22 := by omega
  interval_cases q <;> norm_num <;> omega

theorem count_loop_mem_eq (len : Int) :
    ∀ (fuel : Nat) (i : Int) (m : Memory),
      count_loop_mem len fuel i m
        = (count_loop m.buffer len fuel i m.counts).map
            (fun cs => Memory.mk m.buffer cs m.chi_sq_sum) := by
  intro fuel
  induction fuel with
  | zero =>
    intro i m
    simp only [count_loop_mem, count_loop]
    split <;> rfl
  | succ fuel ih =>
    intro i m
    simp only [count_loop_mem, count_loop]
    split
    · cases read_byte m.buffer i with
      | none => rfl
      | some b =>
        simp only []
        cases incr_count m.counts b.val with
        | none => rfl
        | some counts1 => simp only []; rw [ih]
    · rfl

theorem score_loop_mem_eq :
    ∀ (fuel : Nat) (i : Int) (m : Memory),
      score_loop_mem fuel i m
        = (score_loop m.counts fuel i m.chi_sq_sum).map
            (fun chi => Memory.mk m.buffer m.counts chi) := by
  intro fuel
  induction fuel with
  | zero =>
    intro i m
    simp only [score_loop_mem, score_loop]
    split <;> rfl
  | succ fuel ih =>
    intro i m
    simp only [score_loop_mem, score_loop]
    split
    · cases read_count m.counts i with
      | none => rfl
      | some c => simp only []; rw [ih]
    · rfl

/-- A call run on the memory returns the verdict of the pure function and leaves the
buffer as it found it. -/
theorem detect_encryption_mem_spec (m : Memory) (len : Int) (r : Int)
    (h : detect_encryption m.buffer len = some r) :
    ∃ m1 : Memory, detect_encryption_mem m len = some (r, m1) ∧ m1.buffer = m.buffer := by
  unfold detect_encryption chi_sq_sum histogram at h
  unfold detect_encryption_mem
  simp only [count_loop_mem_eq, score_loop_mem_eq]
  cases hc : count_loop m.buffer len len.toNat 0 (List.replicate 256 0) with
  | none => rw [hc] at h; exact absurd h (by simp)
  | some cs =>
    rw [hc] at h
    simp only [Option.map_some'] at h ⊢
    cases hs : score_loop cs 256 0 0 with
    | none => rw [hs] at h; exact absurd h (by simp)
    | some chi =>
      rw [hs] at h
      simp only [Option.map_some'] at h ⊢
      refine ⟨Memory.mk m.buffer cs chi, ?_, rfl⟩
      by_cases hchi : chi < 10000
      · simp only [hchi, if_true] at h ⊢
        rw [Option.some.inj h]
      · simp only [hchi, if_false] at h ⊢
        rw [Option.some.inj h]

theorem peak_counts_sum_one : ∑ v in Finset.range 256, peak_counts 1 v = 50436 := by decide!

theorem peak_counts_sum_three : ∑ v in Finset.range 256, peak_counts 3 v = 143116 := by decide!

set_option maxRecDepth 100000 in
theorem sq_dev_total_peak_one : sq_dev_total (peak_counts 1) = 2147395600 := by decide!

set_option maxRecDepth 100000 in
theorem sq_dev_total_peak_three : sq_dev_total (peak_counts 3) = 6442186800 := by decide!

/-- The two peaked histograms are those of real buffers, of 50436 and 143116 bytes, and
the statistic computed on the second is the smaller one. -/
theorem chi_sq_sum_peak_buffers :
    chi_sq_sum (of_counts (peak_counts 1)) 50436 = some 2147395600 ∧
    chi_sq_sum (of_counts (peak_counts 3)) 143116 = some 2147219504 := by
  have hl1 : (of_counts (peak_counts 1)).length = 50436 := by
    rw [length_of_counts, peak_counts_sum_one]
  have hl3 : (of_counts (peak_counts 3)).length = 143116 := by
    rw [length_of_counts, peak_counts_sum_three]
  have ho1 : occurrences (of_counts (peak_counts 1)) 50436 = occ (of_counts (peak_counts 1)) :=
    funext (occurrences_full _ _ (by rw [hl1]; rfl))
  have ho3 : occurrences (of_counts (peak_counts 3)) 143116 = occ (of_counts (peak_counts 3)) :=
    funext (occurrences_full _ _ (by rw [hl3]; rfl))
  constructor
  · rw [chi_sq_sum_eq _ _ (by rw [hl1]; decide), ho1, sq_dev_total_of_counts,
      sq_dev_total_peak_one]
    rfl
  · rw [chi_sq_sum_eq _ _ (by rw [hl3]; decide), ho3, sq_dev_total_of_counts,
      sq_dev_total_peak_three]
    rfl

theorem detect_encryption_far_from_4096 (buffer : List Byte) (len : Int)
    (hlen : len ≤ buffer.length) (h1 : len ≤ 46356) (hfar : len ≤ 2499 ∨ 5693 ≤ len) :
    detect_encryption buffer len = some 0 := by
  have hb := sq_dev_total_lt_of_le buffer len hlen h1
  have hl := sq_dev_total_ge_linear (occurrences buffer len) len.toNat
    (occurrences_sum buffer len hlen)
  rw [detect_encryption_eq buffer len hlen,
    to_uint32_of_nonneg_lt _ (sq_dev_total_nonneg _) (by omega)]
  have : ¬ (sq_dev_total (occurrences buffer len)).toNat < 10000 := by omega
  simp only [this, if_false]

theorem detect_encryption_balanced (n : Nat) (h1 : 2500 ≤ n) (h2 : n ≤ 5692) :
    (of_counts (balanced_counts n)).length = n ∧
    detect_encryption (of_counts (balanced_counts n)) (n : Int) = some 1 := by
  have hlen : (of_counts (balanced_counts n)).length = n := by
    rw [length_of_counts, balanced_counts_sum]
  have hocc : occurrences (of_counts (balanced_counts n)) (n : Int)
      = occ (of_counts (balanced_counts n)) :=
    funext (occurrences_full _ _ (by rw [hlen]))
  have hS := sq_dev_total_balanced_lt n h1 h2
  rw [← sq_dev_total_of_counts] at hS
  refine ⟨hlen, ?_⟩
  rw [detect_encryption_eq _ _ (by rw [hlen]), hocc,
    to_uint32_of_nonneg_lt _ (sq_dev_total_nonneg _) (by omega)]
  have : (sq_dev_total (occ (of_counts (balanced_counts n)))).toNat < 10000 := by omega
  simp only [this, if_true]

theorem sq_dev_modEq_two (c : Nat) : sq_dev c ≡ (c : Int) [ZMOD 2] := by
  unfold sq_dev
  rcases Int.even_or_odd (c : Int) with ⟨k, hk⟩ | ⟨k, hk⟩
  · rw [hk]
    apply Int.ModEq.symm
    rw [Int.modEq_iff_dvd]
    exact ⟨2 * k ^ 2 - 33 * k + 128, by ring⟩
  · rw [hk]
    apply Int.ModEq.symm
    rw [Int.modEq_iff_dvd]
    exact ⟨2 * k ^ 2 - 31 * k + 112, by ring⟩

/-- The exact sum of squared deviations has the parity of the number of bytes counted. -/
theorem sq_dev_total_parity (buffer : List Byte) (len : Int) (hlen : len ≤ buffer.length) :
    sq_dev_total (occurrences buffer len) % 2 = (len.toNat : Int) % 2 := by
  have h1 : sq_dev_total (occurrences buffer len)
      ≡ ((List.range 256).map (fun v => (occurrences buffer len v : Int))).sum [ZMOD 2] :=
    sum_map_modEq _ _ 2 (fun v => sq_dev_modEq_two _) _
  rw [sum_range_eq_finset, ← Nat.cast_sum, occurrences_sum buffer len hlen] at h1
  exact h1

theorem threshold_counts_sum : ∑ v in Finset.range 256, threshold_counts v = 4096 := by
  decide!

set_option maxRecDepth 100000 in
theorem sq_dev_total_threshold_counts : sq_dev_total threshold_counts = 10000 := by decide!

theorem chi_sq_sum_threshold_4096 :
    (of_counts threshold_counts).length = 4096 ∧
    chi_sq_sum (of_counts threshold_counts) 4096 = some 10000 := by
  have hlen : (of_counts threshold_counts).length = 4096 := by
    rw [length_of_counts, threshold_counts_sum]
  have hocc : occurrences (of_counts threshold_counts) 4096 = occ (of_counts threshold_counts) :=
    funext (occurrences_full _ _ (by rw [hlen]; rfl))
  refine ⟨hlen, ?_⟩
  rw [chi_sq_sum_eq _ _ (by rw [hlen]; decide), hocc, sq_dev_total_of_counts,
    sq_dev_total_threshold_counts]
  rfl

theorem mem_of_read_count (counts : List Nat) (i : Int) (c : Nat)
    (h : read_count counts i = some c) : c ∈ counts := by
  unfold read_count at h
  split at h
  · obtain ⟨hi, rfl⟩ := List.getElem?_eq_some_iff.mp h
    exact List.getElem_mem hi
  · exact absurd h (by simp)

/-- While no counter exceeds 46356 the standard-defined scoring loop computes what the
wrap-around scoring loop computes. -/
theorem score_loop_defined_eq (counts : List Nat) (hc : ∀ c ∈ counts, c ≤ 46356) :
    ∀ (fuel : Nat) (i : Int) (chi : Nat),
      score_loop_defined counts fuel i chi
        = match score_loop counts fuel i chi with
          | some x => Checked.ok x
          | none => Checked.fault := by
  intro fuel
  induction fuel with
  | zero =>
    intro i chi
    simp only [score_loop_defined, score_loop]
    split <;> rfl
  | succ fuel ih =>
    intro i chi
    simp only [score_loop_defined, score_loop]
    split
    · cases hrd : read_count counts i with
      | none => rfl
      | some c =>
        have hle := hc c (mem_of_read_count counts i c hrd)
        simp only [(sq_diff_checked_eq c hle).2, sq_diff_eq_sq_dev c hle]
        exact ih _ _
    · rfl

/-- A counter above 46356 makes the standard-defined scoring loop end in `overflow`. -/
theorem score_loop_defined_overflow (counts : List Nat) (hlen : counts.length = 256) :
    ∀ (fuel i : Nat) (chi : Nat), i + fuel = 256 →
      (∃ j : Nat, i ≤ j ∧ ∃ hj : j < counts.length, 46357 ≤ counts[j]) →
      score_loop_defined counts fuel (i : Int) chi = Checked.overflow := by
  intro fuel
  induction fuel with
  | zero =>
    intro i chi h hex
    obtain ⟨j, hij, hj, _⟩ := hex
    omega
  | succ fuel ih =>
    intro i chi h hex
    have hi : i < counts.length := by omega
    have hlt : (i : Int) < 256 := by omega
    have hrd : read_count counts (i : Int) = some counts[i] := by
      simp [read_count, List.getElem?_eq_getElem hi]
    simp only [score_loop_defined, hlt, if_true, hrd]
    cases hsq : sq_diff_checked counts[i] with
    | none => rfl
    | some sq =>
      simp only []
      have hle := (sq_diff_checked_some _ _ hsq).1
      obtain ⟨j, hij, hj, hbig⟩ := hex
      have hne : j ≠ i := by
        intro e
        subst e
        omega
      have := ih (i + 1) (to_uint32 ((chi : Int) + (to_uint32 sq : Int))) (by omega)
        ⟨j, by omega, hj, hbig⟩
      rw [Nat.cast_add, Nat.cast_one] at this
      exact this

theorem detect_encryption_defined_of_histogram (buffer : List Byte) (len : Int)
    (counts : List Nat) (h : histogram buffer len = some counts) :
    detect_encryption_defined buffer len
      = match score_loop_defined counts 256 0 0 with
        | Checked.ok chi => Checked.ok (if chi < 10000 then 1 else 0)
        | Checked.overflow => Checked.overflow
        | Checked.fault => Checked.fault := by
  simp only [detect_encryption_defined, h]

theorem detect_encryption_of_score (buffer : List Byte) (len : Int)
    (counts : List Nat) (chi : Nat) (h : histogram buffer len = some counts)
    (hs : score_loop counts 256 0 0 = some chi) :
    detect_encryption buffer len = if chi < 10000 then some 1 else some 0 := by
  simp only [detect_encryption, chi_sq_sum, h, hs]

/-- With no counter above 46356 the classified call returns the verdict of
`detect_encryption`, which is 0 or 1. -/
theorem detect_encryption_defined_ok (buffer : List Byte) (len : Int)
    (hlen : len ≤ buffer.length) (hint : len ≤ 2147483647)
    (hc : ∀ v : Nat, v < 256 → occurrences buffer len v ≤ 46356) :
    ∃ r : Int, (r = 0 ∨ r = 1) ∧ detect_encryption_defined buffer len = Checked.ok r ∧
      detect_encryption buffer len = some r := by
  have hh := histogram_eq_exact buffer len hlen hint
  have hcs : ∀ c ∈ (List.range 256).map (occurrences buffer len), c ≤ 46356 := by
    intro c hmem
    obtain ⟨v, hv, rfl⟩ := List.mem_map.mp hmem
    exact hc v (List.mem_range.mp hv)
  have hs := score_loop_closed ((List.range 256).map (occurrences buffer len))
    (by rw [List.length_map, List.length_range])
  rw [detect_encryption_defined_of_histogram buffer len _ hh,
    detect_encryption_of_score buffer len _ _ hh hs,
    score_loop_defined_eq _ hcs 256 0 0, hs]
  simp only []
  split
  · exact ⟨1, Or.inr rfl, rfl, rfl⟩
  · exact ⟨0, Or.inl rfl, rfl, rfl⟩

/-- With a counter above 46356 the classified call ends in `overflow`. -/
theorem detect_encryption_defined_overflow (buffer : List Byte) (len : Int)
    (hlen : len ≤ buffer.length) (hint : len ≤ 2147483647)
    (hex : ∃ v : Nat, v < 256 ∧ 46357 ≤ occurrences buffer len v) :
    detect_encryption_defined buffer len = Checked.overflow := by
  have hh := histogram_eq_exact buffer len hlen hint
  have hl : ((List.range 256).map (occurrences buffer len)).length = 256 := by
    rw [List.length_map, List.length_range]
  obtain ⟨v, hv, hbig⟩ := hex
  have := score_loop_defined_overflow _ hl 256 0 0 (Nat.zero_add _)
    ⟨v, Nat.zero_le _, by rw [hl]; exact hv, by
      rw [List.getElem_map, List.getElem_range]
      exact hbig⟩
  rw [Nat.cast_zero] at this
  rw [detect_encryption_defined_of_histogram buffer len _ hh, this]

theorem detect_encryption_defined_replicate (n : Nat) (v : Byte) (h1 : 46357 ≤ n)
    (h2 : n ≤ 2147483647) :
    detect_encryption_defined (List.replicate n v) (n : Int) = Checked.overflow := by
  apply detect_encryption_defined_overflow _ _ (by rw [List.length_replicate]) (by omega)
  refine ⟨v.val, v.isLt, ?_⟩
  rw [occurrences_replicate]
  simp only [if_true]
  exact h1

theorem checked_uint32_some (x : Int) (y : Nat) (h : checked_uint32 x = some y) :
    0 ≤ x ∧ x ≤ 4294967295 ∧ y = x.toNat := by
  unfold checked_uint32 at h
  split at h
  · next hx => exact ⟨hx.1, hx.2, (Option.some.inj h).symm⟩
  · exact absurd h (by simp)

/-- When the checked scoring loop ends without overflow, the wrap-around scoring loop
returns the same value, which is the exact sum of squared deviations. -/
theorem score_loop_checked_ok (counts : List Nat) (hlen : counts.length = 256) :
    ∀ (fuel i : Nat) (chi s : Nat), i + fuel = 256 → chi ≤ 4294967295 →
      score_loop_checked counts fuel (i : Int) chi = Checked.ok s →
      score_loop counts fuel (i : Int) chi = some s ∧
        (s : Int) = (chi : Int) + ((counts.drop i).map sq_dev).sum := by
  intro fuel
  induction fuel with
  | zero =>
    intro i chi s h _ hok
    have hi : i = 256 := by omega
    subst hi
    have hnil : List.drop 256 counts = [] := List.drop_eq_nil_of_le (by omega)
    simp only [score_loop_checked, Nat.cast_ofNat, lt_irrefl, if_false] at hok
    have hs : chi = s := Checked.ok.inj hok
    subst hs
    simp [score_loop, hnil]
  | succ fuel ih =>
    intro i chi s h hchi hok
    have hi : i < counts.length := by omega
    have hlt : (i : Int) < 256 := by omega
    have hrd : read_count counts (i : Int) = some counts[i] := by
      simp [read_count, List.getElem?_eq_getElem hi]
    simp only [score_loop_checked, hlt, if_true, hrd] at hok
    cases hsq : sq_diff_checked counts[i] with
    | none => rw [hsq] at hok; exact Checked.noConfusion hok
    | some sq =>
      rw [hsq] at hok
      simp only [] at hok
      obtain ⟨hle, rfl⟩ := sq_diff_checked_some _ _ hsq
      cases hacc : checked_uint32 ((chi : Int) + sq_dev counts[i]) with
      | none => rw [hacc] at hok; exact Checked.noConfusion hok
      | some chi1 =>
        rw [hacc] at hok
        simp only [] at hok
        obtain ⟨h0, hmax, rfl⟩ := checked_uint32_some _ _ hacc
        have hsq0 : 0 ≤ sq_dev counts[i] := sq_nonneg _
        have hnext := ih (i + 1) ((chi : Int) + sq_dev counts[i]).toNat s (by omega)
          (by omega) (by rw [Nat.cast_add, Nat.cast_one]; exact hok)
        rw [Nat.cast_add, Nat.cast_one] at hnext
        have hstep : to_uint32 ((chi : Int) + (to_uint32 (sq_diff counts[i]) : Int))
            = ((chi : Int) + sq_dev counts[i]).toNat := by
          rw [sq_diff_eq_sq_dev _ hle, to_uint32_cast]
          unfold to_uint32
          omega
        rw [List.drop_eq_getElem_cons hi, List.map_cons, List.sum_cons]
        simp only [score_loop, hlt, if_true, hrd, hstep]
        refine ⟨hnext.1, ?_⟩
        rw [hnext.2, Int.toNat_of_nonneg h0]
        ring

theorem score_loop_checked_uniform :
    score_loop_checked (List.replicate 256 16) 256 0 0 = Checked.ok 0 := by
  have h := score_loop_checked_eq (List.replicate 256 16) (List.length_replicate _ _)
    (by intro c hc; rw [List.eq_of_mem_replicate hc]; norm_num) 256 0 0 (Nat.zero_add _) (by
      simp only [List.drop_zero, List.map_replicate, List.sum_replicate, sq_dev]
      norm_num)
  rw [Nat.cast_zero] at h
  rw [h]
  simp only [List.drop_zero, List.map_replicate, List.sum_replicate, sq_dev]
  norm_num

theorem score_loop_checked_one_peak :
    score_loop_checked one_peak_counts 256 0 0 = Checked.ok 2147395600 := by
  have h := score_loop_checked_eq one_peak_counts one_peak_length one_peak_le 256 0 0
    (Nat.zero_add _) (by rw [List.drop_zero, one_peak_sum]; norm_num)
  rw [Nat.cast_zero] at h
  rw [h, List.drop_zero, one_peak_sum]
  rfl

/-! ## The claims -/

/-- Claim C1: for every buffer and every length `len` not exceeding the size of the buffer,
`detect_encryption` computes a statistic `chi` (the sum of squared deviations from 16,
modulo `2^32`) and returns 1 exactly when `chi < 10000` and 0 exactly when `10000 ≤ chi`;
in particular `chi = 10000` gives 0 (Structured) and `chi = 9999` gives 1 (HighEntropy). -/
theorem detect_encryption_threshold (buffer : List Byte) (len : Int)
    (hlen : len ≤ buffer.length) :
    ∃ chi : Nat, chi_sq_sum buffer len = some chi ∧
      chi = to_uint32 (sq_dev_total (occurrences buffer len)) ∧
      (detect_encryption buffer len = some 1 ↔ chi < 10000) ∧
      (detect_encryption buffer len = some 0 ↔ 10000 ≤ chi) ∧
      (chi = 10000 → detect_encryption buffer len = some 0) ∧
      (chi = 9999 → detect_encryption buffer len = some 1) := by
  refine ⟨_, chi_sq_sum_eq buffer len hlen, rfl, ?_⟩
  rw [detect_encryption_eq buffer len hlen]
  generalize to_uint32 (sq_dev_total (occurrences buffer len)) = chi
  by_cases h : chi < 10000
  · simp only [h, if_true]
    refine ⟨by simp, by simp; omega, by omega, by simp⟩
  · simp only [h, if_false]
    refine ⟨by simp, by simp; omega, by simp, by omega⟩

/-- Witness for C1: a 4196-byte buffer whose statistic is exactly 10000 is classified 0, and
a 4211-byte buffer whose statistic is exactly 9999 is classified 1. -/
theorem detect_encryption_threshold_witness :
    ((4196 : Int) ≤ at_threshold_buffer.length ∧
      chi_sq_sum at_threshold_buffer 4196 = some 10000 ∧
      detect_encryption at_threshold_buffer 4196 = some 0) ∧
    ((4211 : Int) ≤ below_threshold_buffer.length ∧
      chi_sq_sum below_threshold_buffer 4211 = some 9999 ∧
      detect_encryption below_threshold_buffer 4211 = some 1) := by
  have h1 : (4196 : Int) ≤ at_threshold_buffer.length := by
    rw [at_threshold_buffer_length]; decide
  have h2 : (4211 : Int) ≤ below_threshold_buffer.length := by
    rw [below_threshold_buffer_length]; decide
  obtain ⟨c1, hc1, _, _, _, hat, _⟩ := detect_encryption_threshold at_threshold_buffer 4196 h1
  obtain ⟨c2, hc2, _, _, _, _, hbelow⟩ :=
    detect_encryption_threshold below_threshold_buffer 4211 h2
  rw [chi_sq_sum_at_threshold] at hc1
  rw [chi_sq_sum_below_threshold] at hc2
  exact ⟨⟨h1, chi_sq_sum_at_threshold, hat (Option.some.inj hc1).symm⟩,
    ⟨h2, chi_sq_sum_below_threshold, hbelow (Option.some.inj hc2).symm⟩⟩

/-- Claim C2: for every buffer and every length `len` with `0 ≤ len ≤` size of the buffer
(`len` an `int`, so at most `2^31 - 1`), the counting pass ends with 256 counters, counter
`i` being the number of occurrences of the byte value `i` among the first `len` bytes, and
the counters sum to `len`. -/
theorem histogram_sum (buffer : List Byte) (len : Int) (h0 : 0 ≤ len)
    (hlen : len ≤ buffer.length) (hint : len ≤ 2147483647) :
    ∃ counts : List Nat, histogram buffer len = some counts ∧ counts.length = 256 ∧
      (∀ i : Nat, i < 256 → counts[i]? = some (occurrences buffer len i)) ∧
      (counts.sum : Int) = len := by
  have hocc : ∀ v, to_uint32 (occurrences buffer len v : Int) = occurrences buffer len v := by
    intro v
    apply to_uint32_of_lt
    have h1 : occurrences buffer len v ≤ (buffer.take len.toNat).length := occ_le_length _ _
    rw [List.length_take] at h1
    omega
  refine ⟨_, histogram_eq buffer len hlen, by rw [List.length_map, List.length_range], ?_, ?_⟩
  · intro i hi
    rw [List.getElem?_map, List.getElem?_range hi, Option.map_some', hocc]
  · simp only [hocc]
    rw [sum_range_eq_finset]
    unfold occurrences
    rw [occ_sum, List.length_take]
    omega

/-- Witness for C2: the first two bytes of the three-byte buffer `7, 7, 200`. -/
theorem histogram_sum_witness :
    (0 : Int) ≤ 2 ∧ (2 : Int) ≤ ([7, 7, 200] : List Byte).length ∧ (2 : Int) ≤ 2147483647 ∧
    ∃ counts : List Nat, histogram [7, 7, 200] 2 = some counts ∧ counts.length = 256 ∧
      (∀ i : Nat, i < 256 → counts[i]? = some (occurrences [7, 7, 200] 2 i)) ∧
      (counts.sum : Int) = 2 :=
  ⟨by decide, by decide, by decide,
    histogram_sum [7, 7, 200] 2 (by decide) (by decide) (by decide)⟩

/-- Claim C3: for every buffer of length 4096 in which each of the 256 byte values occurs
exactly 16 times, the statistic is 0 and `detect_encryption` returns 1 (HighEntropy). -/
theorem uniform_is_high_entropy (buffer : List Byte) (hlen : buffer.length = 4096)
    (huni : ∀ v : Byte, buffer.count v = 16) :
    chi_sq_sum buffer 4096 = some 0 ∧ detect_encryption buffer 4096 = some 1 := by
  have hS : sq_dev_total (occurrences buffer 4096) = 0 := by
    rw [sq_dev_total_eq_finset]
    apply Finset.sum_eq_zero
    intro v hv
    have hv1 : v < 256 := Finset.mem_range.mp hv
    rw [occurrences_full buffer 4096 (by omega)]
    have := occ_eq_count buffer ⟨v, hv1⟩
    simp only at this
    rw [this, huni]
    rfl
  have hle : (4096 : Int) ≤ buffer.length := by omega
  rw [chi_sq_sum_eq buffer 4096 hle, detect_encryption_eq buffer 4096 hle, hS]
  exact ⟨rfl, rfl⟩

/-- Witness for C3: sixteen repetitions of the sequence of all 256 byte values. -/
theorem uniform_is_high_entropy_witness :
    uniform_buffer.length = 4096 ∧ (∀ v : Byte, uniform_buffer.count v = 16) ∧
      chi_sq_sum uniform_buffer 4096 = some 0 ∧ detect_encryption uniform_buffer 4096 = some 1 :=
  ⟨uniform_buffer_length, uniform_buffer_count,
    uniform_is_high_entropy uniform_buffer uniform_buffer_length uniform_buffer_count⟩

/-- Claim C4: for every byte value `v`, on the buffer made of 4096 copies of `v` the
statistic is `(4096-16)^2 + 255*(0-16)^2 = 16711680` and `detect_encryption` returns 0
(Structured). -/
theorem single_byte_is_structured (v : Byte) :
    chi_sq_sum (List.replicate 4096 v) 4096 = some 16711680 ∧
      (4096 - 16 : Int) ^ 2 + 255 * (0 - 16) ^ 2 = 16711680 ∧
      detect_encryption (List.replicate 4096 v) 4096 = some 0 := by
  have hle : (4096 : Int) ≤ (List.replicate 4096 v).length := by
    rw [List.length_replicate]; norm_num
  have hocc : occurrences (List.replicate 4096 v) 4096 = fun w => if v.val = w then 4096 else 0 := by
    funext w
    rw [occurrences_full _ _ (by rw [List.length_replicate]; norm_num), occ_replicate]
  have hS : sq_dev_total (occurrences (List.replicate 4096 v) 4096) = 16711680 := by
    rw [hocc, sq_dev_total_single]; norm_num
  rw [chi_sq_sum_eq _ _ hle, detect_encryption_eq _ _ hle, hS]
  exact ⟨rfl, by norm_num, rfl⟩

/-- Claim C5: for every length `len` and every two buffers holding at least `len` bytes
whose first `len` bytes are permutations of each other, `detect_encryption` computes the
same statistic and returns the same verdict on both. -/
theorem permutation_invariant (len : Int) (b1 b2 : List Byte)
    (h1 : len ≤ b1.length) (h2 : len ≤ b2.length)
    (hperm : (b1.take len.toNat).Perm (b2.take len.toNat)) :
    (∃ chi, chi_sq_sum b1 len = some chi ∧ chi_sq_sum b2 len = some chi) ∧
    (∃ r, detect_encryption b1 len = some r ∧ detect_encryption b2 len = some r) := by
  have hocc : occurrences b1 len = occurrences b2 len := by
    funext v
    exact hperm.countP_eq _
  rw [chi_sq_sum_eq b1 len h1, chi_sq_sum_eq b2 len h2, detect_encryption_eq b1 len h1,
    detect_encryption_eq b2 len h2, hocc]
  exact ⟨⟨_, rfl, rfl⟩, ⟨_, rfl, rfl⟩⟩

/-- Witness for C5: the buffers `1, 2, 9` and `2, 1, 5, 5` read at length 2. -/
theorem permutation_invariant_witness :
    (2 : Int) ≤ ([1, 2, 9] : List Byte).length ∧ (2 : Int) ≤ ([2, 1, 5, 5] : List Byte).length ∧
    (([1, 2, 9] : List Byte).take (2 : Int).toNat).Perm
      (([2, 1, 5, 5] : List Byte).take (2 : Int).toNat) ∧
    ((∃ chi, chi_sq_sum [1, 2, 9] 2 = some chi ∧ chi_sq_sum [2, 1, 5, 5] 2 = some chi) ∧
    (∃ r, detect_encryption [1, 2, 9] 2 = some r ∧ detect_encryption [2, 1, 5, 5] 2 = some r)) :=
  ⟨by decide, by decide, by decide,
    permutation_invariant 2 [1, 2, 9] [2, 1, 5, 5] (by decide) (by decide) (by decide)⟩

/-- Counterexample to C6 as stated: on the empty buffer with length 0 the code does not
compute a statistic of 0 with verdict 1; the statistic is 65536 and the verdict is 0. -/
theorem empty_buffer_not_high_entropy :
    ¬ (chi_sq_sum [] 0 = some 0 ∧ detect_encryption [] 0 = some 1) := by
  rw [chi_sq_sum_len_zero, detect_encryption_len_zero]
  simp

/-- Claim C6, amended: for length 0 the histogram is all zero, but the expectation is the
constant 16, so every `diff * diff` is 256, the statistic is `256 * 256 = 65536`, and
`detect_encryption` returns 0 (Structured), whatever the buffer. -/
theorem zero_length_is_structured (buffer : List Byte) :
    histogram buffer 0 = some (List.replicate 256 0) ∧
      sq_diff 0 = 256 ∧
      chi_sq_sum buffer 0 = some 65536 ∧
      detect_encryption buffer 0 = some 0 := by
  refine ⟨?_, by decide, chi_sq_sum_len_zero buffer, detect_encryption_len_zero buffer⟩
  simp only [histogram, Int.toNat_zero, count_loop, lt_irrefl, if_false]

/-- Counterexample to C7 as stated: on the one-byte buffer `0` with length 1 the code
computes 65505, while the sum of `(count_i - E)^2` with `E = len / 256 = 0` is 1. -/
theorem expectation_is_not_len_div_256 :
    chi_sq_sum [0] 1 = some 65505 ∧ spec_chi_sq_sum [0] 1 = 1 ∧
      ¬ ((chi_sq_sum [0] 1).map Int.ofNat = some (spec_chi_sq_sum [0] 1)) := by
  rw [chi_sq_sum_one_byte, spec_chi_sq_sum_one_byte]
  exact ⟨rfl, rfl, by decide⟩

/-- Claim C7, amended: for every buffer and every length `len` not exceeding its size, the
statistic is the sum over the 256 buckets of `(count_i - 16)^2` reduced modulo `2^32`, and
exactly that sum whenever it is below `2^32`; the expectation is the constant 16, which is
`len / 256` whenever `len / 256 = 16`. -/
theorem chi_sq_sum_fixed_expectation (buffer : List Byte) (len : Int)
    (hlen : len ≤ buffer.length) :
    chi_sq_sum buffer len = some (to_uint32 (sq_dev_total (occurrences buffer len))) ∧
    (sq_dev_total (occurrences buffer len) < 4294967296 →
      (chi_sq_sum buffer len).map Int.ofNat = some (sq_dev_total (occurrences buffer len))) ∧
    (len / 256 = 16 → spec_chi_sq_sum buffer len = sq_dev_total (occurrences buffer len)) := by
  refine ⟨chi_sq_sum_eq buffer len hlen, ?_, ?_⟩
  · intro h
    rw [chi_sq_sum_eq buffer len hlen, to_uint32_of_nonneg_lt _ (sq_dev_total_nonneg _) h]
    simp [Int.toNat_of_nonneg (sq_dev_total_nonneg (occurrences buffer len))]
  · intro h
    simp only [spec_chi_sq_sum, h]
    rfl

/-- Witness for C7: the 4096-byte uniform buffer, where `len / 256 = 16` and both sums are 0. -/
theorem chi_sq_sum_fixed_expectation_witness :
    (4096 : Int) ≤ uniform_buffer.length ∧
    chi_sq_sum uniform_buffer 4096
      = some (to_uint32 (sq_dev_total (occurrences uniform_buffer 4096))) ∧
    (sq_dev_total (occurrences uniform_buffer 4096) < 4294967296 →
      (chi_sq_sum uniform_buffer 4096).map Int.ofNat
        = some (sq_dev_total (occurrences uniform_buffer 4096))) ∧
    ((4096 : Int) / 256 = 16 →
      spec_chi_sq_sum uniform_buffer 4096 = sq_dev_total (occurrences uniform_buffer 4096)) :=
  ⟨by rw [uniform_buffer_length]; decide,
    chi_sq_sum_fixed_expectation uniform_buffer 4096 (by rw [uniform_buffer_length]; decide)⟩

/-- Memory safety and termination, with `diff * diff` read as two's-complement: for every
buffer holding at least `len` bytes, every read `buffer[i]` with `0 ≤ i < len` is in bounds
and yields a byte value below 256, every update `counts[buffer[i]]++` of the 256 counters is
in bounds, both loops finish within their fuel, and the wrap-around computation returns 0
or 1. -/
theorem detect_encryption_total (buffer : List Byte) (len : Int) (hlen : len ≤ buffer.length) :
    (∀ i : Int, 0 ≤ i → i < len → ∃ b : Byte, read_byte buffer i = some b ∧ b.val < 256 ∧
      ∀ counts : List Nat, counts.length = 256 →
        ∃ counts1, incr_count counts b.val = some counts1 ∧ counts1.length = 256) ∧
    (∃ counts, histogram buffer len = some counts ∧ counts.length = 256) ∧
    (∃ chi, chi_sq_sum buffer len = some chi ∧ chi < 4294967296) ∧
    (detect_encryption buffer len = some 0 ∨ detect_encryption buffer len = some 1) := by
  refine ⟨?_, ⟨_, histogram_eq buffer len hlen, by rw [List.length_map, List.length_range]⟩,
    ⟨_, chi_sq_sum_eq buffer len hlen, to_uint32_lt _⟩, ?_⟩
  · intro i hi0 hi
    have hb : i.toNat < buffer.length := by omega
    refine ⟨buffer[i.toNat], ?_, (buffer[i.toNat]).isLt, ?_⟩
    · simp [read_byte, hi0, List.getElem?_eq_getElem hb]
    · intro counts hc
      have hk : (buffer[i.toNat]).val < counts.length := by rw [hc]; exact (buffer[i.toNat]).isLt
      exact ⟨_, incr_count_eq counts _ hk, by rw [List.length_set, hc]⟩
  · rw [detect_encryption_eq buffer len hlen]
    split
    · exact Or.inr rfl
    · exact Or.inl rfl

/-- Counterexample to C8 as stated: on 46357 copies of the byte 65, a buffer that holds
`len = 46357` bytes, the product `diff * diff = 46341 * 46341` overflows `int32_t`, so the
call does not end in the verdict 0 or 1 but in a signed overflow. -/
theorem signed_overflow_at_46357 :
    (46357 : Int) ≤ (List.replicate 46357 (65 : Byte)).length ∧
    sq_diff_checked 46357 = none ∧
    detect_encryption_defined (List.replicate 46357 65) 46357 = Checked.overflow ∧
    ¬ (detect_encryption_defined (List.replicate 46357 65) 46357 = Checked.ok 0 ∨
        detect_encryption_defined (List.replicate 46357 65) 46357 = Checked.ok 1) := by
  have h := detect_encryption_defined_replicate 46357 65 (le_refl _) (by norm_num)
  rw [Nat.cast_ofNat] at h
  refine ⟨by rw [List.length_replicate]; decide, sq_diff_checked_overflow 46357 (le_refl _),
    h, ?_⟩
  rw [h]
  rintro (h1 | h1) <;> exact Checked.noConfusion h1

/-- Claim C8, amended: for every buffer holding at least `len` bytes (`len` an `int`),
every read `buffer[i]` with `0 ≤ i < len` is in bounds and yields a byte value below 256,
every update `counts[buffer[i]]++` is in bounds, and both loops finish, so the call never
faults; when no byte value occurs more than 46356 times among the first `len` bytes (in
particular when `len ≤ 46356`) the result is exactly 0 or 1 with no error outcome, and when
some byte value occurs more often the call ends in a signed overflow of `diff * diff`. -/
theorem detect_encryption_total_defined (buffer : List Byte) (len : Int)
    (hlen : len ≤ buffer.length) (hint : len ≤ 2147483647) :
    (∀ i : Int, 0 ≤ i → i < len → ∃ b : Byte, read_byte buffer i = some b ∧ b.val < 256 ∧
      ∀ counts : List Nat, counts.length = 256 →
        ∃ counts1, incr_count counts b.val = some counts1 ∧ counts1.length = 256) ∧
    (∃ counts, histogram buffer len = some counts ∧ counts.length = 256) ∧
    detect_encryption_defined buffer len ≠ Checked.fault ∧
    ((∀ v : Nat, v < 256 → occurrences buffer len v ≤ 46356) →
      (detect_encryption_defined buffer len = Checked.ok 0 ∨
        detect_encryption_defined buffer len = Checked.ok 1) ∧
      ∃ r : Int, detect_encryption_defined buffer len = Checked.ok r ∧
        detect_encryption buffer len = some r) ∧
    (len ≤ 46356 → ∀ v : Nat, v < 256 → occurrences buffer len v ≤ 46356) ∧
    ((∃ v : Nat, v < 256 ∧ 46357 ≤ occurrences buffer len v) →
      detect_encryption_defined buffer len = Checked.overflow) := by
  have hsafe := detect_encryption_total buffer len hlen
  have hok : (∀ v : Nat, v < 256 → occurrences buffer len v ≤ 46356) →
      (detect_encryption_defined buffer len = Checked.ok 0 ∨
        detect_encryption_defined buffer len = Checked.ok 1) ∧
      ∃ r : Int, detect_encryption_defined buffer len = Checked.ok r ∧
        detect_encryption buffer len = some r := by
    intro hc
    obtain ⟨r, hr, h1, h2⟩ := detect_encryption_defined_ok buffer len hlen hint hc
    refine ⟨?_, r, h1, h2⟩
    rcases hr with rfl | rfl
    · exact Or.inl h1
    · exact Or.inr h1
  refine ⟨hsafe.1, hsafe.2.1, ?_, hok, ?_, detect_encryption_defined_overflow buffer len hlen hint⟩
  · by_cases hc : ∀ v : Nat, v < 256 → occurrences buffer len v ≤ 46356
    · obtain ⟨r, h1, _⟩ := (hok hc).2
      rw [h1]
      exact fun h => Checked.noConfusion h
    · have hex : ∃ v : Nat, v < 256 ∧ 46357 ≤ occurrences buffer len v := by
        by_contra hno
        apply hc
        intro v hv
        by_contra hbig
        exact hno ⟨v, hv, by omega⟩
      rw [detect_encryption_defined_overflow buffer len hlen hint hex]
      exact fun h => Checked.noConfusion h
  · intro hsmall v _
    have := occurrences_le buffer len v
    omega

/-- Witness for C8: the 4096-byte prose buffer read in full. -/
theorem detect_encryption_total_defined_witness :
    (4096 : Int) ≤ prose_buffer.length ∧ (4096 : Int) ≤ 2147483647 ∧
    detect_encryption_defined prose_buffer 4096 ≠ Checked.fault ∧
    (detect_encryption_defined prose_buffer 4096 = Checked.ok 0 ∨
      detect_encryption_defined prose_buffer 4096 = Checked.ok 1) := by
  have h := detect_encryption_total_defined prose_buffer 4096
    (by rw [prose_buffer_length]; decide) (by decide)
  exact ⟨by rw [prose_buffer_length]; decide, by decide, h.2.2.1,
    (h.2.2.2.1 (h.2.2.2.2.1 (by decide))).1⟩

/-- Claim C9: every 4096-byte buffer made only of ASCII bytes (every byte value below 128)
is classified 0 (Structured): the 128 empty buckets alone contribute `128 * 256 = 32768`. -/
theorem ascii_is_structured (buffer : List Byte) (hlen : buffer.length = 4096)
    (hascii : ∀ b ∈ buffer, b.val < 128) :
    detect_encryption buffer 4096 = some 0 := by
  have hocc : ∀ v, occurrences buffer 4096 v = occ buffer v :=
    occurrences_full buffer 4096 (by omega)
  have hlow : (32768 : Int) ≤ sq_dev_total (occurrences buffer 4096) := by
    rw [sq_dev_total_eq_finset, show (256 : Nat) = 128 + 128 from rfl, Finset.sum_range_add]
    have h1 : (0 : Int) ≤ ∑ v in Finset.range 128, sq_dev (occurrences buffer 4096 v) :=
      Finset.sum_nonneg (fun v _ => sq_nonneg _)
    have h2 : ∑ v in Finset.range 128, sq_dev (occurrences buffer 4096 (128 + v)) = 32768 := by
      have h3 : ∀ v, sq_dev (occurrences buffer 4096 (128 + v)) = 256 := by
        intro v
        rw [hocc, occ_eq_zero_of_ascii buffer hascii _ (by omega)]
        rfl
      simp only [h3, Finset.sum_const, Finset.card_range]
      norm_num
    omega
  have hhigh : sq_dev_total (occurrences buffer 4096) < 4294967296 := by
    rw [sq_dev_total_eq_finset]
    have h1 : ∀ v ∈ Finset.range 256, sq_dev (occurrences buffer 4096 v) ≤ 16646400 := by
      intro v _
      have := sq_dev_le (occurrences buffer 4096 v) 4096
        (by rw [hocc, ← hlen]; exact occ_le_length _ _) (by norm_num)
      norm_num at this
      exact this
    have h2 := Finset.sum_le_card_nsmul _ _ _ h1
    rw [Finset.card_range] at h2
    norm_num at h2
    omega
  rw [detect_encryption_eq buffer 4096 (by omega),
    to_uint32_of_nonneg_lt _ (by omega) hhigh]
  have : ¬ (sq_dev_total (occurrences buffer 4096)).toNat < 10000 := by omega
  simp only [this, if_false]

/-- Witness for C9: the text "the " repeated 1024 times. -/
theorem ascii_is_structured_witness :
    prose_buffer.length = 4096 ∧ (∀ b ∈ prose_buffer, b.val < 128) ∧
      detect_encryption prose_buffer 4096 = some 0 :=
  ⟨prose_buffer_length, prose_buffer_ascii,
    ascii_is_structured prose_buffer prose_buffer_length prose_buffer_ascii⟩

/-- Claim C10: `detect_encryption` is deterministic and stateless: whatever the stack frame
holds on entry and whatever calls are made in between, a second call on the same buffer
contents and length returns the same verdict as the first, namely the value of the pure
function, because the histogram and the accumulator start from zero on every call. -/
theorem detect_encryption_stateless (stale : Frame) (between : List (List Byte × Int))
    (buffer : List Byte) (len : Int) :
    (detect_encryption_call (run_calls (detect_encryption_call stale buffer len).2 between)
        buffer len).1
      = (detect_encryption_call stale buffer len).1 ∧
    (detect_encryption_call stale buffer len).1 = detect_encryption buffer len := by
  rw [detect_encryption_call_fst, detect_encryption_call_fst]
  exact ⟨rfl, rfl⟩

/-- Claim C11: for every buffer of length 4096 the counters are the exact occurrence
counts, every `diff` lies in `[-16, 4080]`, every `diff * diff` fits in a signed 32-bit
integer, the sum is at most 16711680 (attained exactly by the buffers made of one repeated
byte), and so the computation runs without overflow and the `uint32_t` statistic is the
exact sum of squared deviations. -/
theorem no_overflow_at_4096 (buffer : List Byte) (hlen : buffer.length = 4096) :
    histogram buffer 4096 = some ((List.range 256).map (occurrences buffer 4096)) ∧
    (∀ v : Nat, v < 256 →
      diff_checked (occurrences buffer 4096 v) = some ((occurrences buffer 4096 v : Int) - 16) ∧
      -16 ≤ (occurrences buffer 4096 v : Int) - 16 ∧
      (occurrences buffer 4096 v : Int) - 16 ≤ 4080 ∧
      sq_diff_checked (occurrences buffer 4096 v) = some (sq_dev (occurrences buffer 4096 v)) ∧
      sq_diff (occurrences buffer 4096 v) = sq_dev (occurrences buffer 4096 v) ∧
      sq_dev (occurrences buffer 4096 v) ≤ 2147483647) ∧
    sq_dev_total (occurrences buffer 4096) ≤ 16711680 ∧
    (sq_dev_total (occurrences buffer 4096) = 16711680 ↔
      ∃ v : Byte, buffer = List.replicate 4096 v) ∧
    chi_sq_sum_checked buffer 4096
      = Checked.ok (sq_dev_total (occurrences buffer 4096)).toNat ∧
    chi_sq_sum buffer 4096 = some (sq_dev_total (occurrences buffer 4096)).toNat := by
  have hle : (4096 : Int) ≤ buffer.length := by omega
  have hocc : ∀ v, occurrences buffer 4096 v ≤ 4096 := fun v => occurrences_le buffer 4096 v
  have hsum : ∑ v in Finset.range 256, occurrences buffer 4096 v = 4096 :=
    occurrences_sum buffer 4096 hle
  have hmax := sq_dev_total_le (occurrences buffer 4096) 4096 (fun v _ => hocc v) hsum
  norm_num at hmax
  refine ⟨histogram_eq_exact buffer 4096 hle (by norm_num), ?_, hmax, ?_,
    chi_sq_sum_checked_eq buffer 4096 hle (by norm_num),
    chi_sq_sum_exact buffer 4096 hle (by norm_num)⟩
  · intro v _
    have h1 := hocc v
    have h2 := sq_diff_checked_eq (occurrences buffer 4096 v) (by omega)
    have h3 := sq_dev_le (occurrences buffer 4096 v) 4096 h1 (by norm_num)
    norm_num at h3
    exact ⟨h2.1, by omega, by omega, h2.2, sq_diff_eq_sq_dev _ (by omega), by omega⟩
  · constructor
    · intro h
      have hz := sq_dev_total_eq_max (occurrences buffer 4096) 4096 (fun v _ => hocc v) hsum
        (by rw [h]; norm_num)
      apply eq_replicate_of_occ buffer 4096 hlen (by norm_num)
      intro v hv
      have := hz v hv
      rw [occurrences_full buffer 4096 (by omega)] at this
      exact this
    · rintro ⟨v, rfl⟩
      have := occurrences_replicate 4096 v
      rw [Nat.cast_ofNat] at this
      rw [this, sq_dev_total_single]
      norm_num

/-- Witness for C11: the 4096-byte prose buffer. -/
theorem no_overflow_at_4096_witness :
    prose_buffer.length = 4096 ∧
    chi_sq_sum_checked prose_buffer 4096
      = Checked.ok (sq_dev_total (occurrences prose_buffer 4096)).toNat ∧
    chi_sq_sum prose_buffer 4096 = some (sq_dev_total (occurrences prose_buffer 4096)).toNat ∧
    sq_dev_total (occurrences prose_buffer 4096) ≤ 16711680 :=
  ⟨prose_buffer_length, (no_overflow_at_4096 prose_buffer prose_buffer_length).2.2.2.2.1,
    (no_overflow_at_4096 prose_buffer prose_buffer_length).2.2.2.2.2,
    (no_overflow_at_4096 prose_buffer prose_buffer_length).2.2.1⟩

/-- Claim C12: `all_buffers 4096` lists each of the `256^4096` buffers of 4096 bytes
exactly once, and the values of `chi_sq_sum` over them add up to `4080 * 256^4096`: the
mean of the statistic over uniformly random 4096-byte buffers is exactly 4080, which is 255
after dividing by 16. -/
theorem mean_statistic_4096 :
    (∀ l : List Byte, l ∈ all_buffers 4096 ↔ l.length = 4096) ∧
    (all_buffers 4096).Nodup ∧
    (all_buffers 4096).length = 256 ^ 4096 ∧
    ((all_buffers 4096).map (fun l => (((chi_sq_sum l 4096).getD 0 : Nat) : Int))).sum
      = 4080 * 256 ^ 4096 ∧
    (4080 : Int) / 16 = 255 := by
  refine ⟨mem_all_buffers 4096, nodup_all_buffers 4096, length_all_buffers 4096, ?_, by decide⟩
  have h1 : (all_buffers 4096).map (fun l => (((chi_sq_sum l 4096).getD 0 : Nat) : Int))
      = (all_buffers 4096).map (fun l => sq_dev_total (occ l)) := by
    apply List.map_congr_left
    intro l hl
    have hlen : l.length = 4096 := (mem_all_buffers 4096 l).mp hl
    have hocc : occurrences l 4096 = occ l := funext (occurrences_full l 4096 (by omega))
    rw [chi_sq_sum_exact l 4096 (by omega) (by norm_num), hocc, Option.getD_some]
    exact Int.toNat_of_nonneg (sq_dev_total_nonneg _)
  rw [h1]
  have h2 := sum_all_buffers 4096
  generalize ((all_buffers 4096).map (fun l => sq_dev_total (occ l))).sum = T at h2 ⊢
  generalize (256 : Int) ^ 4096 = P at h2 ⊢
  norm_num at h2
  omega

/-- A bound of 46356 on every counter does not by itself keep the accumulator from
wrapping: with one counter at 46356 the scoring loop returns 2147395600, with three it
returns only 2147219504, although every bucket deviates at least as much; the same two
values are the statistics of real buffers of 50436 and 143116 bytes. -/
theorem accumulator_wraps_at_three_peaks :
    ¬ (∀ c1 c2 : List Nat, c1.length = 256 → c2.length = 256 →
        (∀ x ∈ c1, x ≤ 46356) → (∀ x ∈ c2, x ≤ 46356) →
        (∀ i : Nat, i < 256 → Int.natAbs (((c1[i]?.getD 0 : Nat) : Int) - 16)
          ≤ Int.natAbs (((c2[i]?.getD 0 : Nat) : Int) - 16)) →
        ∀ s1 s2 : Nat, score_loop c1 256 0 0 = some s1 → score_loop c2 256 0 0 = some s2 →
          s1 ≤ s2) ∧
    chi_sq_sum (of_counts (peak_counts 1)) 50436 = some 2147395600 ∧
    chi_sq_sum (of_counts (peak_counts 3)) 143116 = some 2147219504 := by
  refine ⟨?_, chi_sq_sum_peak_buffers⟩
  intro h
  have := h one_peak_counts three_peak_counts one_peak_length three_peak_length
    one_peak_le three_peak_le peak_deviations 2147395600 2147219504
    one_peak_score three_peak_score
  omega

/-- Claim C13: the statistic is non-negative and monotone in bucket deviation: for any two
histograms of 256 counters on which nothing overflows (neither a `diff * diff` nor the
accumulator, which makes every counter at most 46356), if every bucket of the second
deviates from 16 at least as much as that of the first, then the `chi_sq_sum` computed from
the second is at least that computed from the first. -/
theorem statistic_monotone (c1 c2 : List Nat) (s1 s2 : Nat)
    (h1 : c1.length = 256) (h2 : c2.length = 256)
    (hok1 : score_loop_checked c1 256 0 0 = Checked.ok s1)
    (hok2 : score_loop_checked c2 256 0 0 = Checked.ok s2)
    (hdev : ∀ i : Nat, i < 256 → Int.natAbs (((c1[i]?.getD 0 : Nat) : Int) - 16)
      ≤ Int.natAbs (((c2[i]?.getD 0 : Nat) : Int) - 16)) :
    score_loop c1 256 0 0 = some s1 ∧ score_loop c2 256 0 0 = some s2 ∧
      0 ≤ s1 ∧ s1 ≤ s2 ∧
      (s1 : Int) = (c1.map sq_dev).sum ∧ (s2 : Int) = (c2.map sq_dev).sum ∧
      (∀ x ∈ c1, x ≤ 46356) ∧ (∀ x ∈ c2, x ≤ 46356) := by
  have hle : (c1.map sq_dev).sum ≤ (c2.map sq_dev).sum := by
    rw [map_sq_dev_sum c1 h1, map_sq_dev_sum c2 h2, sq_dev_total_eq_finset,
      sq_dev_total_eq_finset]
    exact Finset.sum_le_sum (fun i hi => sq_dev_mono _ _ (hdev i (Finset.mem_range.mp hi)))
  have r1 := score_loop_checked_ok c1 h1 256 0 0 s1 (Nat.zero_add _) (by norm_num)
    (by rw [Nat.cast_zero]; exact hok1)
  have r2 := score_loop_checked_ok c2 h2 256 0 0 s2 (Nat.zero_add _) (by norm_num)
    (by rw [Nat.cast_zero]; exact hok2)
  rw [Nat.cast_zero, List.drop_zero] at r1 r2
  simp only [Nat.cast_zero, zero_add] at r1 r2
  have hb : ∀ (cs : List Nat) (s : Nat), cs.length = 256 →
      score_loop_checked cs 256 0 0 = Checked.ok s → ∀ x ∈ cs, x ≤ 46356 := by
    intro cs s hl hok x hx
    by_contra hbig
    obtain ⟨j, hj, rfl⟩ := List.getElem_of_mem hx
    have := score_loop_checked_overflow cs hl 256 0 0 (Nat.zero_add _)
      ⟨j, Nat.zero_le _, hj, by omega⟩
    rw [Nat.cast_zero] at this
    rw [this] at hok
    exact Checked.noConfusion hok
  refine ⟨r1.1, r2.1, Nat.zero_le _, ?_, r1.2, r2.2, hb c1 s1 h1 hok1, hb c2 s2 h2 hok2⟩
  have := r1.2
  have := r2.2
  omega

/-- Witness for C13: the all-16 histogram against the histogram with one counter at 46356. -/
theorem statistic_monotone_witness :
    (List.replicate 256 16).length = 256 ∧ one_peak_counts.length = 256 ∧
    score_loop_checked (List.replicate 256 16) 256 0 0 = Checked.ok 0 ∧
    score_loop_checked one_peak_counts 256 0 0 = Checked.ok 2147395600 ∧
    (∀ i : Nat, i < 256 → Int.natAbs ((((List.replicate 256 16)[i]?.getD 0 : Nat) : Int) - 16)
      ≤ Int.natAbs (((one_peak_counts[i]?.getD 0 : Nat) : Int) - 16)) ∧
    score_loop (List.replicate 256 16) 256 0 0 = some 0 ∧
    score_loop one_peak_counts 256 0 0 = some 2147395600 ∧ (0 : Nat) ≤ 2147395600 := by
  have hdev : ∀ i : Nat, i < 256 →
      Int.natAbs ((((List.replicate 256 16)[i]?.getD 0 : Nat) : Int) - 16)
        ≤ Int.natAbs (((one_peak_counts[i]?.getD 0 : Nat) : Int) - 16) := by
    intro i hi
    rw [List.getElem?_replicate, if_pos hi]
    exact Nat.zero_le _
  have h := statistic_monotone (List.replicate 256 16) one_peak_counts 0 2147395600
    (List.length_replicate _ _) one_peak_length score_loop_checked_uniform
    score_loop_checked_one_peak hdev
  exact ⟨List.length_replicate _ _, one_peak_length, score_loop_checked_uniform,
    score_loop_checked_one_peak, hdev, h.1, h.2.1, h.2.2.2.1⟩

/-- Claim C14: for every `len` and every two buffers holding at least `len` bytes that
agree on their first `len` bytes, `detect_encryption` computes the same statistic and
returns the same verdict, whatever the bytes from position `len` on are; and a call run on
the memory leaves the buffer unchanged, its stores going only to `counts` and
`chi_sq_sum`. -/
theorem verdict_depends_on_first_bytes (len : Int) (b1 b2 : List Byte)
    (h1 : len ≤ b1.length) (h2 : len ≤ b2.length)
    (hagree : b1.take len.toNat = b2.take len.toNat) :
    (∃ chi, chi_sq_sum b1 len = some chi ∧ chi_sq_sum b2 len = some chi) ∧
    (∃ r, detect_encryption b1 len = some r ∧ detect_encryption b2 len = some r ∧
      ∀ (counts : List Nat) (chi : Nat),
        ∃ m1 : Memory, detect_encryption_mem (Memory.mk b1 counts chi) len = some (r, m1) ∧
          m1.buffer = b1) := by
  have hocc : occurrences b1 len = occurrences b2 len := by
    funext v
    unfold occurrences
    rw [hagree]
  refine ⟨⟨_, chi_sq_sum_eq b1 len h1, by rw [chi_sq_sum_eq b2 len h2, hocc]⟩,
    ⟨_, detect_encryption_eq b1 len h1, by rw [detect_encryption_eq b2 len h2, hocc], ?_⟩⟩
  intro counts chi
  exact detect_encryption_mem_spec (Memory.mk b1 counts chi) len _
    (detect_encryption_eq b1 len h1)

/-- Witness for C14: the buffers `1, 2, 9` and `1, 2, 5, 5` read at length 2. -/
theorem verdict_depends_on_first_bytes_witness :
    (2 : Int) ≤ ([1, 2, 9] : List Byte).length ∧ (2 : Int) ≤ ([1, 2, 5, 5] : List Byte).length ∧
    ([1, 2, 9] : List Byte).take (2 : Int).toNat = ([1, 2, 5, 5] : List Byte).take (2 : Int).toNat ∧
    (∃ r, detect_encryption [1, 2, 9] 2 = some r ∧ detect_encryption [1, 2, 5, 5] 2 = some r ∧
      ∀ (counts : List Nat) (chi : Nat),
        ∃ m1 : Memory, detect_encryption_mem (Memory.mk [1, 2, 9] counts chi) 2 = some (r, m1) ∧
          m1.buffer = [1, 2, 9]) :=
  ⟨by decide, by decide, by decide,
    (verdict_depends_on_first_bytes 2 [1, 2, 9] [1, 2, 5, 5] (by decide) (by decide) (by decide)).2⟩

/-- Claim C15: for every length `len` with `0 ≤ len ≤ 46356`, some buffer of length `len`
is classified 1 (HighEntropy) if and only if `2500 ≤ len ≤ 5692`; every buffer read at a
length of at most 2499, or between 5693 and 46356, is classified 0 (Structured) whatever
its contents. -/
theorem high_entropy_reachable_iff (len : Int) (h0 : 0 ≤ len) (h1 : len ≤ 46356) :
    ((∃ buffer : List Byte, (buffer.length : Int) = len ∧
        detect_encryption buffer len = some 1) ↔ (2500 ≤ len ∧ len ≤ 5692)) ∧
    (∀ buffer : List Byte, len ≤ buffer.length → (len ≤ 2499 ∨ 5693 ≤ len) →
      detect_encryption buffer len = some 0) := by
  refine ⟨⟨?_, ?_⟩, fun buffer hlen hfar =>
    detect_encryption_far_from_4096 buffer len hlen h1 hfar⟩
  · rintro ⟨buffer, hlen, hdet⟩
    by_contra hnot
    have hfar : len ≤ 2499 ∨ 5693 ≤ len := by omega
    rw [detect_encryption_far_from_4096 buffer len (by omega) h1 hfar] at hdet
    exact absurd hdet (by decide)
  · rintro ⟨hlo, hhi⟩
    obtain ⟨n, rfl⟩ : ∃ n : Nat, len = (n : Int) := ⟨len.toNat, by omega⟩
    have := detect_encryption_balanced n (by omega) (by omega)
    exact ⟨_, by rw [this.1], this.2⟩

/-- Witness for C15: at the calibrated length 4096 a HighEntropy verdict is reachable. -/
theorem high_entropy_reachable_iff_witness :
    (0 : Int) ≤ 4096 ∧ (4096 : Int) ≤ 46356 ∧
    ((∃ buffer : List Byte, (buffer.length : Int) = 4096 ∧
        detect_encryption buffer 4096 = some 1) ↔ ((2500 : Int) ≤ 4096 ∧ (4096 : Int) ≤ 5692)) :=
  ⟨by decide, by decide, (high_entropy_reachable_iff 4096 (by decide) (by decide)).1⟩

/-- Claim C16: with `diff * diff` and the accumulation computed exactly or flagged as
overflow, every buffer read at a length of at most 46356 gives products of at most
`2^31 - 1` and running sums below `2^32`, so the statistic is the exact sum of squared
deviations; whereas 46357 copies of one byte value give `diff * diff = 46341^2 =
2147488281 > 2^31 - 1`, a signed overflow, as does any longer run of one byte value. -/
theorem overflow_free_up_to_46356 (buffer : List Byte) (len : Int)
    (hlen : len ≤ buffer.length) (h : len ≤ 46356) :
    ((∀ v : Nat, v < 256 →
        sq_diff_checked (occurrences buffer len v) = some (sq_dev (occurrences buffer len v)) ∧
        sq_dev (occurrences buffer len v) ≤ 2147483647) ∧
      (∀ k : Nat, k ≤ 256 →
        ∑ v in Finset.range k, sq_dev (occurrences buffer len v) < 4294967296) ∧
      chi_sq_sum_checked buffer len
        = Checked.ok (sq_dev_total (occurrences buffer len)).toNat ∧
      chi_sq_sum buffer len = some (sq_dev_total (occurrences buffer len)).toNat) ∧
    (∀ v : Byte,
      diff_checked 46357 = some 46341 ∧ (46341 : Int) * 46341 = 2147488281 ∧
      (2147483647 : Int) < 2147488281 ∧ sq_diff_checked 46357 = none ∧
      chi_sq_sum_checked (List.replicate 46357 v) 46357 = Checked.overflow) ∧
    (∀ (n : Nat) (v : Byte), 46357 ≤ n → n ≤ 2147483647 →
      chi_sq_sum_checked (List.replicate n v) (n : Int) = Checked.overflow) := by
  have hb := sq_dev_total_lt_of_le buffer len hlen h
  refine ⟨⟨?_, ?_, chi_sq_sum_checked_eq buffer len hlen h, chi_sq_sum_exact buffer len hlen h⟩,
    ?_, fun n v h1 h2 => chi_sq_sum_checked_replicate_overflow n v h1 h2⟩
  · intro v _
    have h1 := occurrences_le buffer len v
    have h2 : occurrences buffer len v ≤ 46356 := by omega
    have h3 := sq_dev_le (occurrences buffer len v) 46356 h2 (by norm_num)
    norm_num at h3
    exact ⟨(sq_diff_checked_eq _ h2).2, by omega⟩
  · intro k hk
    have := sq_dev_total_upto_le (occurrences buffer len) k hk
    omega
  · intro v
    refine ⟨by decide, by norm_num, by norm_num, sq_diff_checked_overflow 46357 (le_refl _), ?_⟩
    have := chi_sq_sum_checked_replicate_overflow 46357 v (le_refl _) (by norm_num)
    rw [Nat.cast_ofNat] at this
    exact this

/-- Witness for C16: 46356 copies of the byte 65, the longest run that does not overflow. -/
theorem overflow_free_up_to_46356_witness :
    (46356 : Int) ≤ (List.replicate 46356 (65 : Byte)).length ∧ (46356 : Int) ≤ 46356 ∧
    chi_sq_sum_checked (List.replicate 46356 (65 : Byte)) 46356
      = Checked.ok (sq_dev_total (occurrences (List.replicate 46356 (65 : Byte)) 46356)).toNat ∧
    chi_sq_sum_checked (List.replicate 46357 (65 : Byte)) 46357 = Checked.overflow :=
  ⟨by rw [List.length_replicate]; decide, by decide,
    (overflow_free_up_to_46356 (List.replicate 46356 (65 : Byte)) 46356
      (by rw [List.length_replicate]; decide) (by decide)).1.2.2.1,
    ((overflow_free_up_to_46356 (List.replicate 46356 (65 : Byte)) 46356
      (by rw [List.length_replicate]; decide) (by decide)).2.1 65).2.2.2.2⟩

/-- Claim C17: for every buffer and every length `len` with `0 ≤ len ≤` size of the buffer,
the computed statistic (wrap-around included) has the parity of `len`; hence at length 4096
it is even and never 9999, while the value 10000 is produced by a 4096-byte buffer. -/
theorem statistic_parity (buffer : List Byte) (len : Int) (h0 : 0 ≤ len)
    (hlen : len ≤ buffer.length) :
    (∃ chi : Nat, chi_sq_sum buffer len = some chi ∧ (chi : Int) % 2 = len % 2) ∧
    (∀ b : List Byte, b.length = 4096 →
      ∃ chi : Nat, chi_sq_sum b 4096 = some chi ∧ chi % 2 = 0 ∧ chi ≠ 9999) ∧
    ((of_counts threshold_counts).length = 4096 ∧
      chi_sq_sum (of_counts threshold_counts) 4096 = some 10000) := by
  have key : ∀ (b : List Byte) (n : Int), 0 ≤ n → n ≤ b.length →
      ((to_uint32 (sq_dev_total (occurrences b n)) : Nat) : Int) % 2 = n % 2 := by
    intro b n hn0 hn
    have h1 := sq_dev_total_parity b n hn
    rw [Int.toNat_of_nonneg hn0] at h1
    rw [to_uint32_cast]
    omega
  refine ⟨⟨_, chi_sq_sum_eq buffer len hlen, key buffer len h0 hlen⟩, ?_,
    chi_sq_sum_threshold_4096⟩
  intro b hb
  have h2 := key b 4096 (by norm_num) (by omega)
  refine ⟨_, chi_sq_sum_eq b 4096 (by omega), ?_, ?_⟩ <;> omega

/-- Witness for C17: the 4096-byte prose buffer, whose statistic is even. -/
theorem statistic_parity_witness :
    (0 : Int) ≤ 4096 ∧ (4096 : Int) ≤ prose_buffer.length ∧
    ∃ chi : Nat, chi_sq_sum prose_buffer 4096 = some chi ∧ (chi : Int) % 2 = 4096 % 2 :=
  ⟨by decide, by rw [prose_buffer_length]; decide,
    (statistic_parity prose_buffer 4096 (by decide) (by rw [prose_buffer_length]; decide)).1⟩

/-- Claim C18: for every buffer read at a length of at most 46356, the statistic is 0 if
and only if each of the 256 byte values occurs exactly 16 times among the first `len`
bytes, and a statistic of 0 forces `len = 4096`. -/
theorem zero_statistic_iff_uniform (buffer : List Byte) (len : Int)
    (hlen : len ≤ buffer.length) (h : len ≤ 46356) :
    (chi_sq_sum buffer len = some 0 ↔
      ∀ v : Nat, v < 256 → occurrences buffer len v = 16) ∧
    (chi_sq_sum buffer len = some 0 → len = 4096) := by
  have hiff : chi_sq_sum buffer len = some 0 ↔
      ∀ v : Nat, v < 256 → occurrences buffer len v = 16 := by
    rw [chi_sq_sum_exact buffer len hlen h]
    have h0 := sq_dev_total_nonneg (occurrences buffer len)
    constructor
    · intro hz
      have hS : sq_dev_total (occurrences buffer len) = 0 := by
        have := Option.some.inj hz
        omega
      rw [sq_dev_total_eq_finset, Finset.sum_eq_zero_iff_of_nonneg (fun v _ => sq_nonneg _)] at hS
      intro v hv
      have := hS v (Finset.mem_range.mpr hv)
      unfold sq_dev at this
      have h2 := pow_eq_zero_iff (two_ne_zero) |>.mp this
      omega
    · intro hu
      have hS : sq_dev_total (occurrences buffer len) = 0 := by
        rw [sq_dev_total_eq_finset]
        apply Finset.sum_eq_zero
        intro v hv
        rw [hu v (Finset.mem_range.mp hv)]
        rfl
      rw [hS]
      rfl
  refine ⟨hiff, ?_⟩
  intro hz
  have hu := hiff.mp hz
  have hsum := occurrences_sum buffer len hlen
  rw [Finset.sum_congr rfl (fun v hv => hu v (Finset.mem_range.mp hv))] at hsum
  simp at hsum
  omega

/-- Witness for C18: the uniform 4096-byte buffer, whose statistic is 0. -/
theorem zero_statistic_iff_uniform_witness :
    (4096 : Int) ≤ uniform_buffer.length ∧ (4096 : Int) ≤ 46356 ∧
    (chi_sq_sum uniform_buffer 4096 = some 0 ↔
      ∀ v : Nat, v < 256 → occurrences uniform_buffer 4096 v = 16) :=
  ⟨by rw [uniform_buffer_length]; decide, by decide,
    (zero_statistic_iff_uniform uniform_buffer 4096 (by rw [uniform_buffer_length]; decide)
      (by decide)).1⟩

end EntropyCalc
